import Mathlib

/-!
Verification of the CV chunking / vision-OCR pipeline of this repository
(`cv_processor.py`, `cv_vision.py`).

Python strings are modelled as `List Char` (Python `str` is a sequence of
unicode code points).  Python's whitespace class (`re` `\s`, `str.strip`)
is modelled by its ASCII fragment, which is the fragment exercised by this
pipeline: space, tab, newline, carriage return, vertical tab, form feed.
Python slice / `rfind` index semantics (negative indices counted from the
end, bounds clamped to the string) are modelled by `pyIdx` below.
-/

set_option autoImplicit false

/-! ### Python string primitives -/

/-- ASCII fragment of Python's whitespace class. -/
def pyIsSpace (c : Char) : Bool :=
  c == ' ' || c == '\t' || c == '\n' || c == '\r' || c == '\x0b' || c == '\x0c'

/-- `str.strip()` on the ASCII whitespace fragment. -/
def pyStrip (s : List Char) : List Char :=
  (((s.dropWhile pyIsSpace).reverse).dropWhile pyIsSpace).reverse

/-- Normalisation of one Python slice bound for a string of length `n`:
negative indices count from the end, then the bound is clamped to `[0, n]`. -/
def pyIdx (n : Nat) (i : Int) : Nat :=
  if i < 0 then (i + n).toNat else min i.toNat n

/-- Python `s[a:b]`. -/
def pySlice (s : List Char) (a b : Int) : List Char :=
  (s.take (pyIdx s.length b)).drop (pyIdx s.length a)

/-- Does `sub` occur in `s` starting at (absolute) position `i`? -/
def matchAt (s sub : List Char) (i : Nat) : Bool :=
  (s.drop i).take sub.length == sub

/-- Python `s.rfind(sub, a, b)`: the largest `i` with `a' ≤ i`,
`i + |sub| ≤ b'` and `sub` occurring at `i` (`a'`, `b'` the normalised
bounds); `-1` if there is none. -/
def pyRfind (s sub : List Char) (a b : Int) : Int :=
  match ((List.range (s.length + 1)).filter
      (fun i => decide (pyIdx s.length a ≤ i) &&
        decide (i + sub.length ≤ pyIdx s.length b) && matchAt s sub i)).getLast? with
  | some i => (i : Int)
  | none => -1

/-! ### `CVProcessor.clean_text` -/

/-- The control characters removed by `clean_text`:
`[\x00-\x08\x0b\x0c\x0e-\x1f\x7f]` (tab, newline and carriage return kept). -/
def isCtrl (c : Char) : Bool :=
  (c.toNat ≤ 0x08) || c.toNat == 0x0b || c.toNat == 0x0c ||
  (0x0e ≤ c.toNat && c.toNat ≤ 0x1f) || c.toNat == 0x7f

/-- `re.sub(r'[\x00-\x08\x0b\x0c\x0e-\x1f\x7f]', '', text)` -/
def removeCtrl (s : List Char) : List Char :=
  s.filter (fun c => !isCtrl c)

/-- `text.replace('\r\n', '\n').replace('\r', '\n')` (the two sequential
replaces amount to one left-to-right scan turning `\r\n` pairs and lone
`\r` into `\n`). -/
def normNewlines : List Char → List Char
  | [] => []
  | '\r' :: '\n' :: rest => '\n' :: normNewlines rest
  | '\r' :: rest => '\n' :: normNewlines rest
  | c :: rest => c :: normNewlines rest

/-- Python `text.split('\n')`. -/
def splitNl : List Char → List (List Char)
  | [] => [[]]
  | c :: rest =>
    if c = '\n' then [] :: splitNl rest
    else
      match splitNl rest with
      | l :: ls => (c :: l) :: ls
      | [] => [[c]]

/-- Python `'\n'.join(lines)`. -/
def joinLines : List (List Char) → List Char
  | [] => []
  | [l] => l
  | l :: ls => l ++ '\n' :: joinLines ls

def isAlphaAZ (c : Char) : Bool :=
  ('a' ≤ c && c ≤ 'z') || ('A' ≤ c && c ≤ 'Z')

/-- The line filter of `clean_text`: `if line and len(re.sub(r'[^a-zA-Z]', '', line)) >= 3`. -/
def keepLine (l : List Char) : Bool :=
  !l.isEmpty && 3 ≤ (l.filter isAlphaAZ).length

def isSpaceTab (c : Char) : Bool := c == ' ' || c == '\t'

/-- Scanner for `re.sub(r'[ \t]+', ' ', text)`: the flag records whether we
are inside a run of spaces/tabs (whose first character already emitted `' '`). -/
def collapseSpacesGo : Bool → List Char → List Char
  | _, [] => []
  | inRun, c :: rest =>
    if isSpaceTab c then
      if inRun then collapseSpacesGo true rest
      else ' ' :: collapseSpacesGo true rest
    else c :: collapseSpacesGo false rest

/-- `re.sub(r'[ \t]+', ' ', text)`. -/
def collapseSpaces (s : List Char) : List Char :=
  collapseSpacesGo false s

/-- A pending run of `k` newlines is emitted as two newlines when `3 ≤ k`
(the `\n` with `-3,-` repetition regex), else verbatim. -/
def flushNl (k : Nat) : List Char :=
  List.replicate (if 3 ≤ k then 2 else k) '\n'

/-- Scanner for the newline-run collapsing; the counter is the number of
pending consecutive newlines. -/
def collapseNlGo : Nat → List Char → List Char
  | k, [] => flushNl k
  | k, c :: rest =>
    if c = '\n' then collapseNlGo (k + 1) rest
    else flushNl k ++ c :: collapseNlGo 0 rest

/-- Replacing every run of three or more newlines by exactly two. -/
def collapseNewlines (s : List Char) : List Char :=
  collapseNlGo 0 s

/-- The kept, stripped lines of `clean_text`. -/
def cleanKeptLines (s : List Char) : List (List Char) :=
  ((splitNl (normNewlines (removeCtrl s))).map pyStrip).filter keepLine

/-- `CVProcessor.clean_text`. -/
def cleanText (s : List Char) : List Char :=
  pyStrip (collapseNewlines (collapseSpaces (joinLines (cleanKeptLines s))))

/-! ### `CVProcessor.chunk_text` -/

/-- Scanner for `re.sub(r'\s+', ' ', text)` (ASCII fragment of `\s`). -/
def collapseWsGo : Bool → List Char → List Char
  | _, [] => []
  | inRun, c :: rest =>
    if pyIsSpace c then
      if inRun then collapseWsGo true rest
      else ' ' :: collapseWsGo true rest
    else c :: collapseWsGo false rest

/-- `re.sub(r'\s+', ' ', text)`. -/
def collapseWs (s : List Char) : List Char :=
  collapseWsGo false s

/-- `re.sub(r'\s+', ' ', text).strip()`: the normalisation `chunk_text`
applies before splitting. -/
def normTxt (s : List Char) : List Char :=
  pyStrip (collapseWs s)

/-- One separator attempt of the natural-boundary search:
`cut_pos = text.rfind(separator, lo, hi); if cut_pos > start: cut_pos + len(separator)`. -/
def tryCut (text : List Char) (start lo hi : Int) (sep : List Char) : Option Int :=
  if start < pyRfind text sep lo hi then some (pyRfind text sep lo hi + sep.length)
  else none

/-- The natural-boundary search of `chunk_text`: separators `'. '`, `'\n'`,
`', '`, `' '` tried in order over `[start + chunk_size // 2, start + chunk_size)`,
first hit wins. -/
def findCut (text : List Char) (cs : Nat) (start : Int) : Option Int :=
  ((tryCut text start (start + ((cs / 2 : Nat) : Int)) (start + (cs : Int)) ['.', ' ']).orElse fun _ =>
   ((tryCut text start (start + ((cs / 2 : Nat) : Int)) (start + (cs : Int)) ['\n']).orElse fun _ =>
    ((tryCut text start (start + ((cs / 2 : Nat) : Int)) (start + (cs : Int)) [',', ' ']).orElse fun _ =>
     tryCut text start (start + ((cs / 2 : Nat) : Int)) (start + (cs : Int)) [' '])))

/-- The cut position `end` used for the window starting at `start`:
the raw boundary `start + chunk_size`, replaced by a natural cut when the
window's right edge lies strictly inside the text and the search succeeds. -/
def chunkEnd (text : List Char) (cs : Nat) (start : Int) : Int :=
  if start + (cs : Int) < (text.length : Int) then
    (findCut text cs start).getD (start + (cs : Int))
  else start + (cs : Int)

/-- The (stripped) chunk emitted for the window starting at `start`. -/
def chunkAt (text : List Char) (cs : Nat) (start : Int) : List Char :=
  pyStrip (pySlice text start (chunkEnd text cs start))

/-- The `while start < len(text)` loop of `chunk_text`, with explicit fuel;
`none` models running out of fuel (in particular, any non-terminating
execution yields `none` for every fuel). -/
def goChunks (text : List Char) (cs ov : Nat) : Nat → Int → Option (List (List Char))
  | 0, _ => none
  | fuel + 1, start =>
    if start < (text.length : Int) then
      Option.map
        (fun rest =>
          if (chunkAt text cs start).isEmpty then rest
          else chunkAt text cs start :: rest)
        (if (text.length : Int) - 10 ≤ chunkEnd text cs start - (ov : Int) then some []
         else goChunks text cs ov fuel (chunkEnd text cs start - (ov : Int)))
    else some []

/-- `CVProcessor.chunk_text` with explicit loop fuel. -/
def chunkTextFuel (cs ov : Nat) (s : List Char) (fuel : Nat) : Option (List (List Char)) :=
  if (normTxt s).isEmpty then some []
  else if (normTxt s).length ≤ cs then some [normTxt s]
  else goChunks (normTxt s) cs ov fuel 0

/-- `CVProcessor.chunk_text`, run with fuel `|s| + 1` (enough for every
terminating configuration, see `chunkText_terminates`). -/
def chunkText (cs ov : Nat) (s : List Char) : Option (List (List Char)) :=
  chunkTextFuel cs ov s (s.length + 1)

/-! ### Basic lemmas about the string primitives -/

theorem head?_dropWhile_not {p : Char → Bool} :
    ∀ {l : List Char} {c : Char}, (l.dropWhile p).head? = some c → p c = false := by
  intro l
  induction l with
  | nil => intro c h; simp [List.dropWhile] at h
  | cons a l ih =>
    intro c h
    by_cases ha : p a
    · exact ih (by simpa [List.dropWhile, ha] using h)
    · rw [List.dropWhile_cons_of_neg ha] at h
      cases h
      simpa using ha

theorem dropWhile_eq_self_of {p : Char → Bool} {l : List Char}
    (h : ∀ c, l.head? = some c → p c = false) : l.dropWhile p = l := by
  cases l with
  | nil => rfl
  | cons a l => exact List.dropWhile_cons_of_neg (by simpa using h a rfl)

theorem pyStrip_head? {l : List Char} {c : Char}
    (h : (pyStrip l).head? = some c) : pyIsSpace c = false := by
  unfold pyStrip at h
  rw [List.head?_reverse] at h
  set v := ((l.dropWhile pyIsSpace).reverse).dropWhile pyIsSpace with hv
  have hne : v ≠ [] := by
    intro hv0
    rw [hv0] at h
    simp at h
  have hsuff : v <:+ (l.dropWhile pyIsSpace).reverse := hv ▸ List.dropWhile_suffix _
  rcases hsuff with ⟨t, ht⟩
  have h2 : ((l.dropWhile pyIsSpace).reverse).getLast? = some c := by
    rw [← ht, List.getLast?_append_of_ne_nil t hne]
    exact h
  rw [List.getLast?_reverse] at h2
  exact head?_dropWhile_not h2

theorem pyStrip_getLast? {l : List Char} {c : Char}
    (h : (pyStrip l).getLast? = some c) : pyIsSpace c = false := by
  unfold pyStrip at h
  rw [List.getLast?_reverse] at h
  exact head?_dropWhile_not h

theorem pyStrip_eq_self_of {l : List Char}
    (h1 : ∀ c, l.head? = some c → pyIsSpace c = false)
    (h2 : ∀ c, l.getLast? = some c → pyIsSpace c = false) : pyStrip l = l := by
  unfold pyStrip
  rw [dropWhile_eq_self_of h1, dropWhile_eq_self_of (by
    intro c hc
    rw [List.head?_reverse] at hc
    exact h2 c hc)]
  exact List.reverse_reverse l

/-- `strip` is idempotent. -/
theorem pyStrip_idem (l : List Char) : pyStrip (pyStrip l) = pyStrip l :=
  pyStrip_eq_self_of (fun _ h => pyStrip_head? h) (fun _ h => pyStrip_getLast? h)

theorem mem_pyStrip {l : List Char} {c : Char} (h : c ∈ pyStrip l) : c ∈ l := by
  unfold pyStrip at h
  rw [List.mem_reverse] at h
  have hsuf : ((l.dropWhile pyIsSpace).reverse).dropWhile pyIsSpace <:+
      (l.dropWhile pyIsSpace).reverse := List.dropWhile_suffix pyIsSpace
  have h2 := hsuf.subset h
  rw [List.mem_reverse] at h2
  exact (List.dropWhile_suffix pyIsSpace).subset h2

theorem pyStrip_length_le (l : List Char) : (pyStrip l).length ≤ l.length := by
  unfold pyStrip
  calc (((l.dropWhile pyIsSpace).reverse).dropWhile pyIsSpace).reverse.length
      = (((l.dropWhile pyIsSpace).reverse).dropWhile pyIsSpace).length := List.length_reverse _
    _ ≤ ((l.dropWhile pyIsSpace).reverse).length :=
        (List.dropWhile_suffix pyIsSpace).sublist.length_le
    _ = (l.dropWhile pyIsSpace).length := List.length_reverse _
    _ ≤ l.length := (List.dropWhile_suffix pyIsSpace).sublist.length_le

theorem collapseWsGo_length_le : ∀ (b : Bool) (s : List Char),
    (collapseWsGo b s).length ≤ s.length := by
  intro b s
  induction s generalizing b with
  | nil => simp [collapseWsGo]
  | cons c rest ih =>
    by_cases hc : pyIsSpace c
    · cases b with
      | true => simpa [collapseWsGo, hc] using Nat.le_succ_of_le (ih true)
      | false => simpa [collapseWsGo, hc] using ih true
    · simpa [collapseWsGo, hc] using ih false

theorem normTxt_length_le (s : List Char) : (normTxt s).length ≤ s.length :=
  le_trans (pyStrip_length_le _) (collapseWsGo_length_le false s)

theorem mem_collapseWsGo : ∀ {b : Bool} {s : List Char} {c : Char},
    c ∈ collapseWsGo b s → c = ' ' ∨ (c ∈ s ∧ pyIsSpace c = false) := by
  intro b s
  induction s generalizing b with
  | nil => intro c h; simp [collapseWsGo] at h
  | cons a rest ih =>
    intro c h
    by_cases ha : pyIsSpace a
    · cases b with
      | true =>
        rcases ih (by simpa [collapseWsGo, ha] using h) with h1 | h2
        · exact Or.inl h1
        · exact Or.inr ⟨List.mem_cons_of_mem _ h2.1, h2.2⟩
      | false =>
        rw [collapseWsGo] at h
        simp only [ha, if_true] at h
        rcases List.mem_cons.mp h with rfl | h'
        · exact Or.inl rfl
        · rcases ih h' with h1 | h2
          · exact Or.inl h1
          · exact Or.inr ⟨List.mem_cons_of_mem _ h2.1, h2.2⟩
    · rw [collapseWsGo] at h
      simp only [ha, if_false] at h
      rcases List.mem_cons.mp h with rfl | h'
      · by_cases hc : pyIsSpace c
        · simp [hc] at ha
        · exact Or.inr ⟨List.mem_cons_self _ _, by simpa using hc⟩
      · rcases ih h' with h1 | h2
        · exact Or.inl h1
        · exact Or.inr ⟨List.mem_cons_of_mem _ h2.1, h2.2⟩

theorem mem_normTxt {s : List Char} {c : Char} (h : c ∈ normTxt s) :
    c = ' ' ∨ (c ∈ s ∧ pyIsSpace c = false) :=
  mem_collapseWsGo (mem_pyStrip h)

theorem newline_not_mem_normTxt (s : List Char) : '\n' ∉ normTxt s := by
  intro h
  rcases mem_normTxt h with h1 | h2
  · exact absurd h1 (by decide)
  · exact absurd h2.2 (by decide)

/-! ### Claim C3: the normalisation example -/

/-- Claim C3, counterexample: on the spec's example input, `clean_text` does
not return `"Line1\n\nB C"` (the line `"B  C"` has only two alphabetic
characters, so it is dropped, and blank lines are dropped before the
newline-collapsing step ever sees them). -/
theorem cleanText_example_cex :
    cleanText ("Line1\r\n\r\n\r\nA\nB  C\x07".toList) ≠ "Line1\n\nB C".toList := by
  decide

/-- Claim C3, amended: `clean_text` applied to
`"Line1\r\n\r\n\r\nA\nB  C\x07"` returns exactly `"Line1"`: the control byte
is stripped and line-ending styles unified, but every line other than
`"Line1"` (the blank lines, `"A"`, and `"B  C"`) has fewer than 3 alphabetic
characters and is dropped. -/
theorem cleanText_example :
    cleanText ("Line1\r\n\r\n\r\nA\nB  C\x07".toList) = "Line1".toList := by
  decide

/-! ### Claim C5: texts no longer than `chunk_size` -/

/-- Claim C5, counterexample: a whitespace-only text of length ≤ `chunk_size`
produces zero chunks, not one chunk equal to its (empty) collapsed-trimmed
form. -/
theorem chunkText_short_cex :
    (" ".toList.length ≤ 5) ∧
      chunkText 5 0 (" ".toList) ≠ some [normTxt (" ".toList)] := by
  constructor
  · decide
  · decide

/-- Claim C5, amended: for every text of length at most `chunk_size` whose
whitespace-collapsed and trimmed form is non-empty, `chunk_text` returns
exactly one chunk, equal to that form (for an input whose collapsed-trimmed
form is empty it returns no chunks instead). -/
theorem chunkText_short (s : List Char) (cs ov : Nat)
    (hlen : s.length ≤ cs) (hne : normTxt s ≠ []) :
    chunkText cs ov s = some [normTxt s] := by
  unfold chunkText chunkTextFuel
  have h1 : (normTxt s).isEmpty = false := by
    cases h : normTxt s with
    | nil => exact absurd h hne
    | cons a l => simp [h]
  have h2 : (normTxt s).length ≤ cs := le_trans (normTxt_length_le s) hlen
  simp [h1, h2]

/-- Witness for `chunkText_short`. -/
theorem chunkText_short_witness :
    chunkText 500 100 ("hello world".toList) = some [normTxt ("hello world".toList)] :=
  chunkText_short ("hello world".toList) 500 100 (by decide) (by decide)

/-! ### Bounds on the cut search -/

theorem getLast?_mem {α : Type} {l : List α} {a : α} (h : l.getLast? = some a) : a ∈ l := by
  have h2 : (l.reverse).head? = some a := by rw [List.head?_reverse]; exact h
  cases hl : l.reverse with
  | nil => rw [hl] at h2; simp at h2
  | cons x xs =>
    rw [hl] at h2
    cases h2
    have : a ∈ l.reverse := by rw [hl]; exact List.mem_cons_self _ _
    simpa using this

theorem pyIdx_le (n : Nat) (i : Int) : pyIdx n i ≤ n := by
  unfold pyIdx
  split
  · omega
  · exact Nat.min_le_right _ _

theorem pyIdx_le_add (n : Nat) (a : Int) (k : Nat) : pyIdx n (a + k) ≤ pyIdx n a + k := by
  unfold pyIdx
  split <;> split <;> omega

theorem pyIdx_coe_le_self {n : Nat} {i : Int} (h : 0 ≤ i) : (pyIdx n i : Int) ≤ i := by
  unfold pyIdx
  split
  · omega
  · have : min i.toNat n ≤ i.toNat := Nat.min_le_left _ _
    omega

theorem pyIdx_of_le {n : Nat} {i : Int} (h0 : 0 ≤ i) (h : i ≤ n) : (pyIdx n i : Int) = i := by
  unfold pyIdx
  split
  · omega
  · have : i.toNat ≤ n := by omega
    rw [Nat.min_eq_left this]
    omega

/-- `pyRfind` either fails with `-1` or returns an in-range match position. -/
theorem pyRfind_cases (s sub : List Char) (a b : Int) :
    pyRfind s sub a b = -1 ∨
      ∃ q : Nat, pyRfind s sub a b = (q : Int) ∧ pyIdx s.length a ≤ q ∧
        q + sub.length ≤ pyIdx s.length b ∧ matchAt s sub q = true := by
  unfold pyRfind
  cases hL : ((List.range (s.length + 1)).filter
      (fun i => decide (pyIdx s.length a ≤ i) &&
        decide (i + sub.length ≤ pyIdx s.length b) && matchAt s sub i)).getLast? with
  | none => exact Or.inl rfl
  | some q =>
    right
    have hq := List.mem_filter.mp (getLast?_mem hL)
    refine ⟨q, rfl, ?_, ?_, ?_⟩ <;> simp_all

/-- When `pyRfind` fails, no position in the (normalised) range matches. -/
theorem pyRfind_eq_neg_one {s sub : List Char} {a b : Int}
    (h : pyRfind s sub a b = -1) :
    ∀ q : Nat, pyIdx s.length a ≤ q → q + sub.length ≤ pyIdx s.length b →
      matchAt s sub q = false := by
  intro q h1 h2
  rcases pyRfind_cases s sub a b with hc | ⟨p, hp, _, _, _⟩
  · by_contra hm
    unfold pyRfind at h
    have hqr : q ∈ List.range (s.length + 1) := by
      have := pyIdx_le s.length b
      have hsub : q < s.length + 1 := by omega
      simpa [List.mem_range] using hsub
    have hqf : q ∈ (List.range (s.length + 1)).filter
        (fun i => decide (pyIdx s.length a ≤ i) &&
          decide (i + sub.length ≤ pyIdx s.length b) && matchAt s sub i) := by
      rw [List.mem_filter]
      refine ⟨hqr, ?_⟩
      simp only [Bool.and_eq_true, decide_eq_true_eq]
      exact ⟨⟨h1, h2⟩, by simpa using hm⟩
    have hne : (List.range (s.length + 1)).filter
        (fun i => decide (pyIdx s.length a ≤ i) &&
          decide (i + sub.length ≤ pyIdx s.length b) && matchAt s sub i) ≠ [] :=
      List.ne_nil_of_mem hqf
    rw [pyRfind] at hc
    cases hgl : ((List.range (s.length + 1)).filter
        (fun i => decide (pyIdx s.length a ≤ i) &&
          decide (i + sub.length ≤ pyIdx s.length b) && matchAt s sub i)).getLast? with
    | none => exact hne (List.getLast?_eq_none_iff.mp hgl)
    | some p => rw [hgl] at hc; simp at hc
  · rw [hp] at h; omega

theorem tryCut_bounds {text : List Char} {start lo hi e : Int} {sep : List Char}
    (h : tryCut text start lo hi sep = some e) (hsep : 1 ≤ sep.length)
    (h0 : 0 ≤ start) (hhi0 : 0 ≤ hi) : lo + 1 ≤ e ∧ e ≤ hi := by
  unfold tryCut at h
  rcases pyRfind_cases text sep lo hi with hc | ⟨q, hq, hq1, hq2, _⟩
  · rw [hc] at h
    split at h
    · omega
    · exact absurd h (by simp)
  · rw [hq] at h
    split at h
    · cases h
      have hbn : (pyIdx text.length hi : Int) ≤ hi := pyIdx_coe_le_self hhi0
      have hlo' : lo ≤ (q : Int) := by
        by_cases hcase : lo ≤ (text.length : Int)
        · by_cases hlo0 : 0 ≤ lo
          · have := pyIdx_of_le hlo0 hcase
            omega
          · omega
        · exfalso
          have h1 : text.length ≤ pyIdx text.length lo := by
            unfold pyIdx
            split
            · omega
            · omega
          have h2 := pyIdx_le text.length hi
          omega
      constructor
      · omega
      · omega
    · exact absurd h (by simp)

theorem findCut_bounds {text : List Char} {cs : Nat} {start e : Int}
    (h : findCut text cs start = some e) (h0 : 0 ≤ start) :
    start + ((cs / 2 : Nat) : Int) + 1 ≤ e ∧ e ≤ start + (cs : Int) := by
  have hlo0 : (0 : Int) ≤ start + ((cs / 2 : Nat) : Int) := by positivity
  have hhi0 : (0 : Int) ≤ start + (cs : Int) := by positivity
  unfold findCut at h
  rcases h1 : tryCut text start (start + ((cs / 2 : Nat) : Int)) (start + (cs : Int)) ['.', ' ']
      with _ | e1
  · rcases h2 : tryCut text start (start + ((cs / 2 : Nat) : Int)) (start + (cs : Int)) ['\n']
        with _ | e2
    · rcases h3 : tryCut text start (start + ((cs / 2 : Nat) : Int)) (start + (cs : Int)) [',', ' ']
          with _ | e3
      · rcases h4 : tryCut text start (start + ((cs / 2 : Nat) : Int)) (start + (cs : Int)) [' ']
            with _ | e4
        · rw [h1, h2, h3, h4] at h
          exact absurd h (by simp [Option.orElse])
        · rw [h1, h2, h3, h4] at h
          simp [Option.orElse] at h
          subst h
          have := tryCut_bounds h4 (by decide) h0 hhi0
          omega
      · rw [h1, h2, h3] at h
        simp [Option.orElse] at h
        subst h
        have := tryCut_bounds h3 (by decide) h0 hhi0
        omega
    · rw [h1, h2] at h
      simp [Option.orElse] at h
      subst h
      have := tryCut_bounds h2 (by decide) h0 hhi0
      omega
  · rw [h1] at h
    simp [Option.orElse] at h
    subst h
    have := tryCut_bounds h1 (by decide) h0 hhi0
    omega

theorem chunkEnd_bounds {text : List Char} {cs : Nat} {start : Int} (h0 : 0 ≤ start) :
    min (start + ((cs / 2 : Nat) : Int) + 1) (start + (cs : Int)) ≤ chunkEnd text cs start ∧
      chunkEnd text cs start ≤ start + (cs : Int) := by
  unfold chunkEnd
  split
  · cases hfc : findCut text cs start with
    | none => rw [Option.getD_none]; omega
    | some e =>
      rw [Option.getD_some]
      have := findCut_bounds hfc h0
      constructor
      · have hd : ((cs / 2 : Nat) : Int) ≤ (cs : Int) := by
          have := Nat.div_le_self cs 2
          omega
        omega
      · omega
  · omega

/-! ### Claim C2: termination of `chunk_text` -/

/-- The text on which `chunk_text` diverges with `chunk_size = 10`,
`overlap = 9`. -/
def divergingText : List Char := "aaaa bbbb cccc dddd eeee ffff".toList

theorem goChunks_diverging_one : ∀ fuel : Nat,
    goChunks divergingText 10 9 fuel 1 = none := by
  intro fuel
  induction fuel with
  | zero => rfl
  | succ n ih =>
    have hE : chunkEnd divergingText 10 1 = 10 := by decide
    rw [goChunks, hE]
    have h1 : ((1 : Int) < (divergingText.length : Int)) := by decide
    rw [if_pos h1]
    have h2 : ¬ ((divergingText.length : Int) - 10 ≤ (10 : Int) - ((9 : Nat) : Int)) := by decide
    rw [if_neg h2]
    have h3 : ((10 : Int) - ((9 : Nat) : Int)) = 1 := by decide
    rw [h3, ih, Option.map_none']

theorem chunkTextFuel_diverging : ∀ fuel : Nat,
    chunkTextFuel 10 9 divergingText fuel = none := by
  intro fuel
  have hnorm : normTxt divergingText = divergingText := by decide
  unfold chunkTextFuel
  rw [hnorm]
  rw [if_neg (by decide), if_neg (by decide)]
  cases fuel with
  | zero => rfl
  | succ n =>
    have hE : chunkEnd divergingText 10 0 = 10 := by decide
    rw [goChunks, hE]
    rw [if_pos (show (0 : Int) < (divergingText.length : Int) by decide)]
    rw [if_neg (show ¬ ((divergingText.length : Int) - 10 ≤ (10 : Int) - ((9 : Nat) : Int)) by decide)]
    have h3 : ((10 : Int) - ((9 : Nat) : Int)) = 1 := by decide
    rw [h3, goChunks_diverging_one n, Option.map_none']

/-- Claim C2, counterexample: the configuration `chunk_size = 10`,
`overlap = 9` satisfies the claimed precondition `overlap < chunk_size`,
yet on `divergingText` the loop of `chunk_text` reaches `start = 1` and then
recomputes `start = 1` forever (the natural cut lands at position 10 and
`10 - 9 = 1`), so no amount of fuel makes it return. -/
theorem chunkText_diverges_cex :
    9 < 10 ∧
      ¬ ∃ (fuel : Nat) (l : List (List Char)),
          chunkTextFuel 10 9 divergingText fuel = some l := by
  refine ⟨by decide, ?_⟩
  rintro ⟨fuel, l, hl⟩
  rw [chunkTextFuel_diverging fuel] at hl
  exact absurd hl (by simp)

theorem goChunks_total {text : List Char} {cs ov : Nat}
    (hcs : 0 < cs) (hov : ov ≤ cs / 2) :
    ∀ (fuel : Nat) (start : Int), 0 ≤ start →
      ((text.length : Int) - start).toNat < fuel →
      ∃ l, goChunks text cs ov fuel start = some l := by
  intro fuel
  induction fuel with
  | zero => intro start h0 hf; omega
  | succ n ih =>
    intro start h0 hf
    by_cases hlt : start < (text.length : Int)
    · have hprog : start + 1 + (ov : Int) ≤ chunkEnd text cs start := by
        have hb : min (start + ((cs / 2 : Nat) : Int) + 1) (start + (cs : Int)) ≤
            chunkEnd text cs start := (chunkEnd_bounds h0).1
        have hd2 : (ov : Int) ≤ ((cs / 2 : Nat) : Int) := by exact_mod_cast hov
        have hd3 : ((cs / 2 : Nat) : Int) < (cs : Int) := by
          have h1 : cs / 2 < cs := Nat.div_lt_self hcs (by decide)
          exact_mod_cast h1
        omega
      by_cases hg : (text.length : Int) - 10 ≤ chunkEnd text cs start - (ov : Int)
      · exact ⟨_, by rw [goChunks, if_pos hlt, if_pos hg, Option.map_some']⟩
      · obtain ⟨l, hl⟩ := ih (chunkEnd text cs start - (ov : Int)) (by omega) (by omega)
        exact ⟨_, by rw [goChunks, if_pos hlt, if_neg hg, hl, Option.map_some']⟩
    · exact ⟨[], by rw [goChunks, if_neg hlt]⟩

/-- Claim C2, amended: `chunk_text` terminates for every input text whenever
`overlap ≤ chunk_size / 2` (integer division) and `chunk_size > 0`: under
that bound every loop iteration advances `start` by at least one, so fuel
`|s| + 1` always suffices.  (`overlap < chunk_size` alone is not enough, see
`chunkText_diverges_cex`.) -/
theorem chunkText_terminates (s : List Char) (cs ov : Nat)
    (hcs : 0 < cs) (hov : ov ≤ cs / 2) :
    ∃ l, chunkText cs ov s = some l := by
  unfold chunkText chunkTextFuel
  by_cases h1 : (normTxt s).isEmpty
  · exact ⟨[], by rw [if_pos h1]⟩
  · by_cases h2 : (normTxt s).length ≤ cs
    · exact ⟨[normTxt s], by rw [if_neg h1, if_pos h2]⟩
    · obtain ⟨l, hl⟩ := @goChunks_total (normTxt s) cs ov hcs hov (s.length + 1) 0 le_rfl
        (by have := normTxt_length_le s; omega)
      exact ⟨l, by rw [if_neg h1, if_neg h2, hl]⟩

/-- Witness for `chunkText_terminates`. -/
theorem chunkText_terminates_witness :
    ∃ l, chunkText 10 5 ("abcdefghijklmnopqrstuvwxyz".toList) = some l :=
  chunkText_terminates ("abcdefghijklmnopqrstuvwxyz".toList) 10 5
    (by decide) (by decide)

/-! ### Claim C10: invariants of the produced chunks -/

theorem pyIdx_le_toNat {n : Nat} {i : Int} (h : 0 ≤ i) : pyIdx n i ≤ i.toNat := by
  unfold pyIdx
  split
  · omega
  · exact Nat.min_le_left _ _

theorem pySlice_length (s : List Char) (a b : Int) :
    (pySlice s a b).length = pyIdx s.length b - pyIdx s.length a := by
  unfold pySlice
  rw [List.length_drop, List.length_take]
  have := pyIdx_le s.length b
  omega

theorem mem_pySlice {s : List Char} {a b : Int} {c : Char} (h : c ∈ pySlice s a b) :
    c ∈ s :=
  List.mem_of_mem_take (List.mem_of_mem_drop h)

theorem tryCut_pyIdx_le {text : List Char} {cs : Nat} {start e : Int} {sep : List Char}
    (h : tryCut text start (start + ((cs / 2 : Nat) : Int)) (start + (cs : Int)) sep = some e)
    (hsep1 : 1 ≤ sep.length) (hsep2 : sep.length ≤ 2) (hcs : 1 ≤ cs) :
    pyIdx text.length e ≤ pyIdx text.length start + cs := by
  unfold tryCut at h
  rcases pyRfind_cases text sep (start + ((cs / 2 : Nat) : Int)) (start + (cs : Int))
      with hc | ⟨q, hq, hq1, hq2, _⟩
  · rw [hc] at h
    split at h
    · -- the Python quirk: a failed rfind (-1) still "beats" a negative start
      cases h
      have he0 : (0 : Int) ≤ -1 + (sep.length : Int) := by omega
      have he1 : (-1 : Int) + (sep.length : Int) ≤ 1 := by omega
      have := @pyIdx_le_toNat text.length _ he0
      omega
    · exact absurd h (by simp)
  · rw [hq] at h
    split at h
    · cases h
      have he0 : (0 : Int) ≤ (q : Int) + (sep.length : Int) := by positivity
      have h1 : pyIdx text.length ((q : Int) + (sep.length : Int)) ≤ q + sep.length :=
        le_trans (pyIdx_le_toNat he0) (by omega)
      have h2 := pyIdx_le_add text.length start cs
      omega
    · exact absurd h (by simp)

theorem pyIdx_chunkEnd_le {text : List Char} {cs : Nat} (hcs : 1 ≤ cs) (start : Int) :
    pyIdx text.length (chunkEnd text cs start) ≤ pyIdx text.length start + cs := by
  unfold chunkEnd
  split
  · cases hfc : findCut text cs start with
    | none => rw [Option.getD_none]; exact pyIdx_le_add _ _ _
    | some e =>
      rw [Option.getD_some]
      unfold findCut at hfc
      rcases h1 : tryCut text start (start + ((cs / 2 : Nat) : Int)) (start + (cs : Int)) ['.', ' ']
          with _ | e1
      · rcases h2 : tryCut text start (start + ((cs / 2 : Nat) : Int)) (start + (cs : Int)) ['\n']
            with _ | e2
        · rcases h3 : tryCut text start (start + ((cs / 2 : Nat) : Int)) (start + (cs : Int)) [',', ' ']
              with _ | e3
          · rcases h4 : tryCut text start (start + ((cs / 2 : Nat) : Int)) (start + (cs : Int)) [' ']
                with _ | e4
            · rw [h1, h2, h3, h4] at hfc
              exact absurd hfc (by simp [Option.orElse])
            · rw [h1, h2, h3, h4] at hfc
              simp [Option.orElse] at hfc
              subst hfc
              exact tryCut_pyIdx_le h4 (by decide) (by decide) hcs
          · rw [h1, h2, h3] at hfc
            simp [Option.orElse] at hfc
            subst hfc
            exact tryCut_pyIdx_le h3 (by decide) (by decide) hcs
        · rw [h1, h2] at hfc
          simp [Option.orElse] at hfc
          subst hfc
          exact tryCut_pyIdx_le h2 (by decide) (by decide) hcs
      · rw [h1] at hfc
        simp [Option.orElse] at hfc
        subst hfc
        exact tryCut_pyIdx_le h1 (by decide) (by decide) hcs
  · exact pyIdx_le_add _ _ _

theorem chunkAt_length_le {text : List Char} {cs : Nat} (hcs : 1 ≤ cs) (start : Int) :
    (chunkAt text cs start).length ≤ cs := by
  unfold chunkAt
  have h1 := pyStrip_length_le (pySlice text start (chunkEnd text cs start))
  rw [pySlice_length] at h1
  have h2 := @pyIdx_chunkEnd_le text cs hcs start
  omega

theorem goChunks_inv {text : List Char} {cs ov : Nat} (hcs : 1 ≤ cs) :
    ∀ (fuel : Nat) (start : Int) (l : List (List Char)),
      goChunks text cs ov fuel start = some l →
      ∀ c ∈ l, c ≠ [] ∧ c.length ≤ cs ∧ (∀ x ∈ c, x ∈ text) ∧ pyStrip c = c := by
  intro fuel
  induction fuel with
  | zero => intro start l h; exact absurd h (by simp [goChunks])
  | succ n ih =>
    intro start l h
    rw [goChunks] at h
    split at h
    · rcases hX : (if (text.length : Int) - 10 ≤ chunkEnd text cs start - (ov : Int) then
          some ([] : List (List Char))
        else goChunks text cs ov n (chunkEnd text cs start - (ov : Int))) with _ | rest
      · rw [hX] at h
        exact absurd h (by simp)
      · rw [hX, Option.map_some'] at h
        cases h
        have hrest : ∀ c ∈ rest, c ≠ [] ∧ c.length ≤ cs ∧ (∀ x ∈ c, x ∈ text) ∧ pyStrip c = c := by
          split at hX
          · cases hX; intro c hc; exact absurd hc (by simp)
          · exact ih _ rest hX
        intro c hc
        split at hc
        · exact hrest c hc
        · rcases List.mem_cons.mp hc with rfl | hc'
          · refine ⟨?_, chunkAt_length_le hcs start, ?_, pyStrip_idem _⟩
            · intro h0
              simp only [h0] at *
              simp_all
            · intro x hx
              exact mem_pySlice (mem_pyStrip hx)
          · exact hrest c hc'
    · cases h
      intro c hc
      exact absurd hc (by simp)

/-- Claim C10: for every input text, every `chunk_size ≥ 1` and every
`overlap`, each string in a list returned by `chunk_text` is non-empty, has
length at most `chunk_size`, contains no newline character, and carries no
leading or trailing whitespace (it is its own `strip`). -/
theorem chunkText_chunk_invariants (s : List Char) (cs ov fuel : Nat)
    (l : List (List Char)) (hcs : 1 ≤ cs) (h : chunkTextFuel cs ov s fuel = some l) :
    ∀ c ∈ l, c ≠ [] ∧ c.length ≤ cs ∧ '\n' ∉ c ∧ pyStrip c = c := by
  unfold chunkTextFuel at h
  split at h
  · cases h
    intro c hc
    exact absurd hc (by simp)
  · split at h
    · cases h
      intro c hc
      rw [List.mem_singleton] at hc
      subst hc
      refine ⟨?_, by assumption, newline_not_mem_normTxt s, pyStrip_idem _⟩
      intro h0
      simp [h0, List.isEmpty] at *
    · intro c hc
      obtain ⟨h1, h2, h3, h4⟩ := goChunks_inv hcs fuel 0 l h c hc
      exact ⟨h1, h2, fun hn => newline_not_mem_normTxt s (h3 '\n' hn), h4⟩

/-- Witness for `chunkText_chunk_invariants`, at `chunk_size = 10`,
`overlap = 5` on a 26-character text: the first produced chunk satisfies all
four invariants. -/
theorem chunkText_chunk_invariants_witness :
    "abcdefghij".toList ≠ [] ∧ ("abcdefghij".toList).length ≤ 10 ∧
      '\n' ∉ "abcdefghij".toList ∧ pyStrip ("abcdefghij".toList) = "abcdefghij".toList :=
  chunkText_chunk_invariants ("abcdefghijklmnopqrstuvwxyz".toList) 10 5 27
    ["abcdefghij".toList, "fghijklmno".toList, "klmnopqrst".toList, "pqrstuvwxy".toList]
    (by decide) (by decide) ("abcdefghij".toList) (by decide)

/-! ### `cv_vision`: image extraction (`extract_images_from_pdf`,
`extract_images_from_docx`) -/

/-- `MIN_IMAGE_SIZE`: images smaller than this many bytes are skipped. -/
def MIN_IMAGE_SIZE : Nat := 5000

/-- `MAX_IMAGES_PER_PDF`: hard cap of extracted images per document. -/
def MAX_IMAGES_PER_PDF : Nat := 20

/-- Inner loop of `extract_images_from_pdf` over one page's enumerated
images (image bytes modelled as `List Nat`); appends qualifying images and
stops as soon as the cap is reached. -/
def pdfInner (pn : Nat) : List (Nat × List Nat) → List (Nat × Nat × List Nat) →
    List (Nat × Nat × List Nat)
  | [], acc => acc
  | (j, b) :: rest, acc =>
    if b.length < MIN_IMAGE_SIZE then pdfInner pn rest acc
    else
      if MAX_IMAGES_PER_PDF ≤ (acc ++ [(pn, j, b)]).length then acc ++ [(pn, j, b)]
      else pdfInner pn rest (acc ++ [(pn, j, b)])

/-- Outer loop of `extract_images_from_pdf` over the enumerated pages. -/
def pdfOuter : List (Nat × List (Nat × List Nat)) → List (Nat × Nat × List Nat) →
    List (Nat × Nat × List Nat)
  | [], acc => acc
  | (pn, imgs) :: rest, acc =>
    if MAX_IMAGES_PER_PDF ≤ (pdfInner pn imgs acc).length then pdfInner pn imgs acc
    else pdfOuter rest (pdfInner pn imgs acc)

/-- `extract_images_from_pdf`: the document is the per-page list of image
byte payloads; pages are numbered from 1, images enumerated within their
page. -/
def extractImagesFromPdf (doc : List (List (List Nat))) : List (Nat × Nat × List Nat) :=
  pdfOuter (doc.enum.map (fun p => (p.1 + 1, p.2.enum))) []

/-- ASCII `str.lower` on one character. -/
def pyLower (c : Char) : Char :=
  if 'A' ≤ c && c ≤ 'Z' then Char.ofNat (c.toNat + 32) else c

/-- The raster-extension test of `extract_images_from_docx`:
`any(media_file.lower().endswith(ext) for ext in ['.png', '.jpg', '.jpeg', '.gif', '.bmp'])`. -/
def isImageName (name : List Char) : Bool :=
  [".png", ".jpg", ".jpeg", ".gif", ".bmp"].any
    (fun ext => ext.toList.isSuffixOf (name.map pyLower))

/-- Loop of `extract_images_from_docx` over the enumerated `word/media/`
entries (name and bytes); `page_num` is always the sentinel 0. -/
def docxLoop : List (Nat × (List Char × List Nat)) → List (Nat × Nat × List Nat) →
    List (Nat × Nat × List Nat)
  | [], acc => acc
  | (j, e) :: rest, acc =>
    if e.2.length < MIN_IMAGE_SIZE then docxLoop rest acc
    else if !isImageName e.1 then docxLoop rest acc
    else
      if MAX_IMAGES_PER_PDF ≤ (acc ++ [(0, j, e.2)]).length then acc ++ [(0, j, e.2)]
      else docxLoop rest (acc ++ [(0, j, e.2)])

/-- `extract_images_from_docx` on the document's media entries. -/
def extractImagesFromDocx (media : List (List Char × List Nat)) :
    List (Nat × Nat × List Nat) :=
  docxLoop media.enum []

/-- All images of a PDF document in page/document order, tagged with their
1-based page number and within-page index. -/
def pdfCandidates (doc : List (List (List Nat))) : List (Nat × Nat × List Nat) :=
  (doc.enum.map (fun p => p.2.enum.map (fun q => (p.1 + 1, q.1, q.2)))).flatten

theorem pdfInner_eq (pn : Nat) :
    ∀ (imgs : List (Nat × List Nat)) (acc : List (Nat × Nat × List Nat)),
      acc.length < MAX_IMAGES_PER_PDF →
      pdfInner pn imgs acc =
        (acc ++ (imgs.filter (fun q => MIN_IMAGE_SIZE ≤ q.2.length)).map
          (fun q => (pn, q.1, q.2))).take MAX_IMAGES_PER_PDF := by
  intro imgs
  induction imgs with
  | nil =>
    intro acc hacc
    simp only [pdfInner, List.filter_nil, List.map_nil, List.append_nil]
    exact (List.take_of_length_le (by omega)).symm
  | cons q rest ih =>
    intro acc hacc
    obtain ⟨j, b⟩ := q
    rw [pdfInner]
    by_cases hsz : b.length < MIN_IMAGE_SIZE
    · rw [if_pos hsz, ih acc hacc, List.filter_cons]
      have : (MIN_IMAGE_SIZE ≤ b.length) = False := by simp; omega
      simp only [this]
      simp
    · rw [if_neg hsz, List.filter_cons]
      have hkeep : decide (MIN_IMAGE_SIZE ≤ b.length) = true := by simp; omega
      simp only [hkeep, if_pos]
      by_cases hcap : MAX_IMAGES_PER_PDF ≤ (acc ++ [(pn, j, b)]).length
      · rw [if_pos hcap]
        have hlen : (acc ++ [(pn, j, b)]).length = MAX_IMAGES_PER_PDF := by
          rw [List.length_append] at hcap ⊢
          simp at hcap ⊢
          omega
        rw [show acc ++ (((j, b) :: rest.filter (fun q => decide (MIN_IMAGE_SIZE ≤ q.2.length))).map
              (fun q => (pn, q.1, q.2))) =
            (acc ++ [(pn, j, b)]) ++ (rest.filter (fun q => decide (MIN_IMAGE_SIZE ≤ q.2.length))).map
              (fun q => (pn, q.1, q.2)) by simp]
        rw [List.take_append_eq_append_take, hlen, Nat.sub_self, List.take_zero,
          List.append_nil]
        exact (List.take_of_length_le (by omega)).symm
      · rw [if_neg hcap]
        have hlt : (acc ++ [(pn, j, b)]).length < MAX_IMAGES_PER_PDF := by omega
        rw [ih (acc ++ [(pn, j, b)]) hlt]
        simp

theorem pdfOuter_eq :
    ∀ (pages : List (Nat × List (Nat × List Nat))) (acc : List (Nat × Nat × List Nat)),
      acc.length < MAX_IMAGES_PER_PDF →
      pdfOuter pages acc =
        (acc ++ (pages.map (fun p =>
          ((p.2.filter (fun q => MIN_IMAGE_SIZE ≤ q.2.length)).map
            (fun q => (p.1, q.1, q.2))))).flatten).take MAX_IMAGES_PER_PDF := by
  intro pages
  induction pages with
  | nil =>
    intro acc hacc
    simp only [pdfOuter, List.map_nil, List.flatten_nil, List.append_nil]
    exact (List.take_of_length_le (by omega)).symm
  | cons p rest ih =>
    intro acc hacc
    obtain ⟨pn, imgs⟩ := p
    rw [pdfOuter]
    rw [pdfInner_eq pn imgs acc hacc]
    set f1 := (imgs.filter (fun q => MIN_IMAGE_SIZE ≤ q.2.length)).map
      (fun q => (pn, q.1, q.2)) with hf1
    by_cases hcap : MAX_IMAGES_PER_PDF ≤ ((acc ++ f1).take MAX_IMAGES_PER_PDF).length
    · rw [if_pos hcap]
      have hgap : MAX_IMAGES_PER_PDF ≤ (acc ++ f1).length := by
        rw [List.length_take] at hcap
        omega
      simp only [List.map_cons, List.flatten_cons]
      conv_rhs => rw [← List.append_assoc, List.take_append_eq_append_take]
      rw [show MAX_IMAGES_PER_PDF - (acc ++ f1).length = 0 from by omega,
        List.take_zero, List.append_nil]
    · rw [if_neg hcap]
      have hlt : (acc ++ f1).length < MAX_IMAGES_PER_PDF := by
        rw [List.length_take] at hcap
        omega
      rw [List.take_of_length_le (by omega)] at hcap ⊢
      rw [ih (acc ++ f1) (by omega)]
      simp

theorem filter_of_map {α β : Type} (l : List α) (f : α → β) (p : β → Bool) :
    (l.map f).filter p = (l.filter (fun x => p (f x))).map f := by
  induction l with
  | nil => rfl
  | cons a l ih =>
    simp only [List.map_cons, List.filter_cons]
    by_cases h : p (f a) <;> simp [h, ih]

theorem docxLoop_eq :
    ∀ (entries : List (Nat × (List Char × List Nat))) (acc : List (Nat × Nat × List Nat)),
      acc.length < MAX_IMAGES_PER_PDF →
      docxLoop entries acc =
        (acc ++ (entries.filter (fun (q : Nat × (List Char × List Nat)) =>
            decide (MIN_IMAGE_SIZE ≤ q.2.2.length) && isImageName q.2.1)).map
          (fun (q : Nat × (List Char × List Nat)) => ((0 : Nat), q.1, q.2.2))).take
          MAX_IMAGES_PER_PDF := by
  intro entries
  induction entries with
  | nil =>
    intro acc hacc
    simp only [docxLoop, List.filter_nil, List.map_nil, List.append_nil]
    exact (List.take_of_length_le (by omega)).symm
  | cons q rest ih =>
    intro acc hacc
    obtain ⟨j, e⟩ := q
    rw [docxLoop]
    by_cases hsz : e.2.length < MIN_IMAGE_SIZE
    · rw [if_pos hsz, ih acc hacc, List.filter_cons]
      have h1 : decide (MIN_IMAGE_SIZE ≤ (j, e).2.2.length) = false := by simp; omega
      rw [h1]
      simp
    · rw [if_neg hsz]
      by_cases hext : isImageName e.1
      · rw [if_neg (by simp [hext])]
        rw [List.filter_cons]
        have h1 : (decide (MIN_IMAGE_SIZE ≤ (j, e).2.2.length) && isImageName (j, e).2.1) = true := by
          simp [hext]
          omega
        rw [h1, if_pos rfl]
        by_cases hcap : MAX_IMAGES_PER_PDF ≤ (acc ++ [(0, j, e.2)]).length
        · rw [if_pos hcap]
          simp only [List.map_cons]
          have hlen : (acc ++ [(0, j, e.2)]).length = MAX_IMAGES_PER_PDF := by
            rw [List.length_append] at hcap ⊢
            simp at hcap ⊢
            omega
          conv_rhs => rw [show acc ++ (((0 : Nat), j, e.2) ::
                (rest.filter (fun (q : Nat × (List Char × List Nat)) =>
                  decide (MIN_IMAGE_SIZE ≤ q.2.2.length) && isImageName q.2.1)).map
                (fun (q : Nat × (List Char × List Nat)) => ((0 : Nat), q.1, q.2.2))) =
              (acc ++ [((0 : Nat), j, e.2)]) ++
                (rest.filter (fun (q : Nat × (List Char × List Nat)) =>
                  decide (MIN_IMAGE_SIZE ≤ q.2.2.length) && isImageName q.2.1)).map
                (fun (q : Nat × (List Char × List Nat)) => ((0 : Nat), q.1, q.2.2)) from by simp,
            List.take_append_eq_append_take]
          rw [hlen, Nat.sub_self, List.take_zero, List.append_nil]
          exact (List.take_of_length_le (by omega)).symm
        · rw [if_neg hcap]
          rw [ih (acc ++ [(0, j, e.2)]) (by omega)]
          simp
      · rw [if_pos (by simp [hext])]
        rw [ih acc hacc, List.filter_cons]
        have h1 : (decide (MIN_IMAGE_SIZE ≤ (j, e).2.2.length) && isImageName (j, e).2.1) = false := by
          simp [hext]
        rw [h1]
        simp

/-- Claim C7: image extraction returns at most `MAX_IMAGES_PER_PDF` (20)
images per document; every returned image has byte length at least
`MIN_IMAGE_SIZE` (5000); smaller images are skipped without counting toward
the cap; and the result consists of exactly the earliest qualifying images
in page/document order (the extraction is the 20-prefix of the
size-filtered — and for DOCX also raster-extension-filtered — candidate
stream, so it stops once the cap is reached). -/
theorem extractImages_cap_filter (doc : List (List (List Nat)))
    (media : List (List Char × List Nat)) :
    extractImagesFromPdf doc =
      ((pdfCandidates doc).filter
        (fun t => MIN_IMAGE_SIZE ≤ t.2.2.length)).take MAX_IMAGES_PER_PDF ∧
    extractImagesFromDocx media =
      ((media.enum.filter (fun q =>
          decide (MIN_IMAGE_SIZE ≤ q.2.2.length) && isImageName q.2.1)).map
        (fun q => (0, q.1, q.2.2))).take MAX_IMAGES_PER_PDF ∧
    (extractImagesFromPdf doc).length ≤ MAX_IMAGES_PER_PDF ∧
    (∀ t ∈ extractImagesFromPdf doc, MIN_IMAGE_SIZE ≤ t.2.2.length) ∧
    (extractImagesFromDocx media).length ≤ MAX_IMAGES_PER_PDF ∧
    (∀ t ∈ extractImagesFromDocx media, MIN_IMAGE_SIZE ≤ t.2.2.length) := by
  have hpdf : extractImagesFromPdf doc =
      ((pdfCandidates doc).filter
        (fun t => MIN_IMAGE_SIZE ≤ t.2.2.length)).take MAX_IMAGES_PER_PDF := by
    unfold extractImagesFromPdf pdfCandidates
    rw [pdfOuter_eq _ [] (by decide), List.nil_append, List.filter_flatten]
    congr 1
    rw [List.map_map, List.map_map]
    congr 1
    apply List.map_congr_left
    intro p _
    simp only [Function.comp]
    rw [filter_of_map]
  have hdocx : extractImagesFromDocx media =
      ((media.enum.filter (fun q =>
          decide (MIN_IMAGE_SIZE ≤ q.2.2.length) && isImageName q.2.1)).map
        (fun q => (0, q.1, q.2.2))).take MAX_IMAGES_PER_PDF := by
    unfold extractImagesFromDocx
    rw [docxLoop_eq _ [] (by decide), List.nil_append]
  refine ⟨hpdf, hdocx, ?_, ?_, ?_, ?_⟩
  · rw [hpdf, List.length_take]
    omega
  · intro t ht
    rw [hpdf] at ht
    have := List.mem_filter.mp (List.mem_of_mem_take ht)
    simpa using this.2
  · rw [hdocx, List.length_take]
    omega
  · intro t ht
    rw [hdocx] at ht
    have ht2 := List.mem_of_mem_take ht
    rw [List.mem_map] at ht2
    obtain ⟨q, hq, rfl⟩ := ht2
    have := List.mem_filter.mp hq
    simp only [Bool.and_eq_true, decide_eq_true_eq] at this
    exact this.2.1

/-! ### `cv_vision.extract_text_from_images`: the vision OCR cache -/

/-- `ImageText` of `cv_vision.py`. -/
structure ImageText where
  page_num : Nat
  image_index : Nat
  text : List Char
  image_hash : List Char
deriving DecidableEq

/-- Lookup in the JSON cache (a Python dict modelled as an insertion-ordered
association list). -/
def lookupC (cache : List (List Char × List Char)) (k : List Char) : Option (List Char) :=
  (cache.find? (fun e => decide (e.1 = k))).map (fun e => e.2)

/-- `cache[k] = v` on a Python dict: replace in place if the key exists,
else append. -/
def setCache (cache : List (List Char × List Char)) (k v : List Char) :
    List (List Char × List Char) :=
  if (cache.find? (fun e => decide (e.1 = k))).isSome then
    cache.map (fun e => if e.1 = k then (k, v) else e)
  else cache ++ [(k, v)]

/-- Appends one `ImageText` to the result list when the extracted text is
truthy (`if text:`). -/
def prependIf (pn idx : Nat) (h t : List Char)
    (r : List ImageText × List (List Char × List Char)) :
    List ImageText × List (List Char × List Char) :=
  (if t.isEmpty then r.1 else ⟨pn, idx, t, h⟩ :: r.1, r.2)

/-- The per-image loop of `extract_text_from_images`.  `hash` abstracts the
MD5 digest; `vision` abstracts `_call_gemini_vision` (`none` models both a
call failure — network/auth error, missing API key — and the explicit
no-text sentinel, exactly as in the source, where both come back as Python
`None`).  On a cache miss the code stores the extracted text, *or the empty
string when `vision` returned `None`*, under the image's hash. -/
def visionFold (hash : List Nat → List Char) (vision : List Nat → Option (List Char))
    (useCache : Bool) :
    List (Nat × Nat × List Nat) → List (List Char × List Char) →
    List ImageText × List (List Char × List Char)
  | [], cache => ([], cache)
  | (pn, idx, b) :: rest, cache =>
    if useCache && (lookupC cache (hash b)).isSome then
      prependIf pn idx (hash b) ((lookupC cache (hash b)).getD [])
        (visionFold hash vision useCache rest cache)
    else
      prependIf pn idx (hash b) ((vision b).getD [])
        (visionFold hash vision useCache rest
          (setCache cache (hash b) ((vision b).getD [])))

/-- `extract_text_from_images`, given the images already extracted from the
document and the cache loaded at start; the second component is the cache
as persisted at the end of the run. -/
def extractTextFromImages (hash : List Nat → List Char)
    (vision : List Nat → Option (List Char)) (useCache : Bool)
    (images : List (Nat × Nat × List Nat)) (cache0 : List (List Char × List Char)) :
    List ImageText × List (List Char × List Char) :=
  visionFold hash vision useCache images cache0

theorem find?_map_update (cache : List (List Char × List Char)) (k v : List Char) :
    (cache.map (fun e => if e.1 = k then (k, v) else e)).find? (fun e => decide (e.1 = k)) =
      if (cache.find? (fun e => decide (e.1 = k))).isSome then some (k, v) else none := by
  induction cache with
  | nil => simp
  | cons a rest ih =>
    by_cases ha : a.1 = k
    · rw [List.map_cons, if_pos ha, List.find?_cons_of_pos _ (by simp),
        List.find?_cons_of_pos _ (by simpa using ha)]
      simp
    · rw [List.map_cons, if_neg ha, List.find?_cons_of_neg _ (by simpa using ha),
        List.find?_cons_of_neg _ (by simpa using ha), ih]

theorem find?_map_update_other (cache : List (List Char × List Char)) (k v k' : List Char)
    (hne : k' ≠ k) :
    (cache.map (fun e => if e.1 = k then (k, v) else e)).find? (fun e => decide (e.1 = k')) =
      cache.find? (fun e => decide (e.1 = k')) := by
  induction cache with
  | nil => rfl
  | cons a rest ih =>
    by_cases ha : a.1 = k
    · rw [List.map_cons, if_pos ha,
        List.find?_cons_of_neg _ (by simp; exact Ne.symm hne),
        List.find?_cons_of_neg _ (by simp [ha]; exact Ne.symm hne), ih]
    · by_cases ha' : a.1 = k'
      · rw [List.map_cons, if_neg ha, List.find?_cons_of_pos _ (by simpa using ha'),
          List.find?_cons_of_pos _ (by simpa using ha')]
      · rw [List.map_cons, if_neg ha, List.find?_cons_of_neg _ (by simpa using ha'),
          List.find?_cons_of_neg _ (by simpa using ha'), ih]

theorem setCache_lookup_self (cache : List (List Char × List Char)) (k v : List Char) :
    lookupC (setCache cache k v) k = some v := by
  unfold setCache lookupC
  split
  case isTrue h =>
    rw [find?_map_update, if_pos h]
    rfl
  case isFalse h =>
    rw [List.find?_append]
    have h0 : cache.find? (fun e => decide (e.1 = k)) = none :=
      Option.not_isSome_iff_eq_none.mp h
    rw [h0]
    simp

theorem setCache_lookup_other (cache : List (List Char × List Char)) (k v k' : List Char)
    (hne : k' ≠ k) : lookupC (setCache cache k v) k' = lookupC cache k' := by
  unfold setCache lookupC
  split
  · rw [find?_map_update_other _ _ _ _ hne]
  · rw [List.find?_append]
    cases hf : cache.find? (fun e => decide (e.1 = k')) with
    | none => simp [Ne.symm hne]
    | some e => simp

theorem visionFold_cache_preserve (hash : List Nat → List Char)
    (vision : List Nat → Option (List Char)) (k : List Char) :
    ∀ (imgs : List (Nat × Nat × List Nat)) (cache : List (List Char × List Char)),
      lookupC cache k = some [] →
      lookupC (visionFold hash vision true imgs cache).2 k = some [] := by
  intro imgs
  induction imgs with
  | nil => intro cache h; exact h
  | cons q rest ih =>
    intro cache h
    obtain ⟨pn, idx, b⟩ := q
    rw [visionFold]
    by_cases hhit : (lookupC cache (hash b)).isSome
    · rw [if_pos (by simp [hhit])]
      unfold prependIf
      split <;> exact ih cache h
    · rw [if_neg (by simp [hhit])]
      unfold prependIf
      have hne : k ≠ hash b := by
        intro hk
        rw [hk] at h
        simp [h] at hhit
      split <;>
        exact ih _ (by rw [setCache_lookup_other _ _ _ _ hne]; exact h)

theorem visionFold_failure_writes (hash : List Nat → List Char) (pn idx : Nat) (b : List Nat) :
    ∀ (imgs : List (Nat × Nat × List Nat)) (cache : List (List Char × List Char)),
      (pn, idx, b) ∈ imgs →
      (lookupC cache (hash b) = none ∨ lookupC cache (hash b) = some []) →
      lookupC (visionFold hash (fun _ => none) true imgs cache).2 (hash b) = some [] := by
  intro imgs
  induction imgs with
  | nil => intro cache hmem; exact absurd hmem (by simp)
  | cons q rest ih =>
    intro cache hmem hinv
    obtain ⟨pn', idx', b'⟩ := q
    rw [visionFold]
    by_cases hhit : (lookupC cache (hash b')).isSome
    · rw [if_pos (by simp [hhit])]
      unfold prependIf
      rcases List.mem_cons.mp hmem with heq | hmem'
      · -- the image itself was a cache hit: its entry must already be `some []`
        have hb : b' = b := by
          simp only [Prod.mk.injEq] at heq
          exact heq.2.2.symm
        subst hb
        rcases hinv with h0 | h0
        · rw [h0] at hhit; simp at hhit
        · split <;> exact visionFold_cache_preserve _ _ _ rest cache h0
      · split <;> exact ih cache hmem' hinv
    · rw [if_neg (by simp [hhit])]
      unfold prependIf
      have hwrite : lookupC (setCache cache (hash b') ((none : Option (List Char)).getD []))
          (hash b) = none ∨
          lookupC (setCache cache (hash b') ((none : Option (List Char)).getD []))
          (hash b) = some [] := by
        by_cases hk : hash b = hash b'
        · rw [hk, setCache_lookup_self]
          exact Or.inr rfl
        · rw [setCache_lookup_other _ _ _ _ hk]
          exact hinv
      rcases List.mem_cons.mp hmem with heq | hmem'
      · have hb : b' = b := by
          simp only [Prod.mk.injEq] at heq
          exact heq.2.2.symm
        subst hb
        have h0 : lookupC (setCache cache (hash b') ((none : Option (List Char)).getD []))
            (hash b') = some [] := by
          rw [setCache_lookup_self]
          rfl
        split <;> exact visionFold_cache_preserve _ _ _ rest _ h0
      · split <;> exact ih _ hmem' hwrite

/-- Claim C1, counterexample: when the vision call fails (here: it returns
`none` for every image, as with a missing API key), `extract_text_from_images`
*does* write a cache entry for the image's content hash — the empty string —
so the image is **not** eligible for retry on a future run. -/
theorem extractText_failure_cex :
    (extractTextFromImages (fun _ => "h".toList) (fun _ => none) true
        [(1, 0, [42])] []).2 = [("h".toList, [])] ∧
      lookupC (extractTextFromImages (fun _ => "h".toList) (fun _ => none) true
        [(1, 0, [42])] []).2 ("h".toList) = some [] := by
  constructor
  · rfl
  · rfl

/-- Claim C1, amended: a failed vision call is cached exactly like an
explicit "no text found" result: if an image's hash is not in the cache at
the start of the run and every vision call fails (returns null), the run
writes the empty string under that hash, so the image will be served from
the cache — not retried — on future runs. -/
theorem extractText_failure_caches (hash : List Nat → List Char)
    (images : List (Nat × Nat × List Nat)) (cache0 : List (List Char × List Char))
    (pn idx : Nat) (b : List Nat)
    (hmem : (pn, idx, b) ∈ images) (hnew : lookupC cache0 (hash b) = none) :
    lookupC (extractTextFromImages hash (fun _ => none) true images cache0).2
      (hash b) = some [] :=
  visionFold_failure_writes hash pn idx b images cache0 hmem (Or.inl hnew)

/-- Witness for `extractText_failure_caches`. -/
theorem extractText_failure_caches_witness :
    lookupC (extractTextFromImages (fun _ => "h".toList) (fun _ => none) true
      [(1, 0, [42])] []).2 ("h".toList) = some [] :=
  extractText_failure_caches (fun _ => "h".toList) [(1, 0, [42])] [] 1 0 [42]
    (by simp) (by rfl)

/-! ### `CVProcessor.process_cv` and `process_all` -/

/-- `CVChunk` of `cv_processor.py` (`page_num` is the integer the code
actually stores: the page number for body text, 0 for image-derived text). -/
structure CVChunk where
  matricula : List Char
  chunk_id : Nat
  text : List Char
  page_num : Nat
  cv_filename : List Char
deriving DecidableEq

/-- `process_cv` drops chunks shorter than 20 characters. -/
def MIN_CHUNK_LEN : Nat := 20

/-- The inner chunk loop of `process_cv`: skip short chunks, give every kept
chunk the next sequential `chunk_id`, prefix `pref` (empty for body text,
`"[IMAGEN] "` for image-derived text) and page number `pn`.  Returns the
chunks and the final counter. -/
def addChunks (m f : List Char) (pn : Nat) (pref : List Char) :
    List (List Char) → Nat → List CVChunk × Nat
  | [], cid => ([], cid)
  | ct :: rest, cid =>
    if ct.length < MIN_CHUNK_LEN then addChunks m f pn pref rest cid
    else
      ((⟨m, cid, pref ++ ct, pn, f⟩ : CVChunk) :: (addChunks m f pn pref rest (cid + 1)).1,
        (addChunks m f pn pref rest (cid + 1)).2)

/-- The body loop of `process_cv` over the extracted pages: clean each
page's text, skip pages that clean to nothing, chunk the rest.  `none`
propagates a non-terminating `chunk_text` configuration. -/
def processPages (cs ov : Nat) (m f : List Char) :
    List (Nat × List Char) → Nat → Option (List CVChunk × Nat)
  | [], cid => some ([], cid)
  | (pn, pt) :: rest, cid =>
    if (cleanText pt).isEmpty then processPages cs ov m f rest cid
    else
      (chunkText cs ov (cleanText pt)).bind (fun cts =>
        (processPages cs ov m f rest (addChunks m f pn [] cts cid).2).map (fun r =>
          ((addChunks m f pn [] cts cid).1 ++ r.1, r.2)))

/-- The vision block of `process_cv`.  `vision` is the result of
`process_cv_with_vision`: `none` models vision being disabled, unavailable
or raising (the `except` branch); `some vt` its returned text, which is
ignored when falsy, else cleaned and chunked with the `"[IMAGEN] "` prefix
and page number 0. -/
def processVision (cs ov : Nat) (m f : List Char) (vision : Option (List Char))
    (cid : Nat) : Option (List CVChunk × Nat) :=
  match vision with
  | none => some ([], cid)
  | some vt =>
    if vt.isEmpty then some ([], cid)
    else if (cleanText vt).isEmpty then some ([], cid)
    else
      (chunkText cs ov (cleanText vt)).map (fun cts =>
        addChunks m f 0 ("[IMAGEN] ".toList) cts cid)

/-- `process_cv` on the already-extracted page texts (the extension dispatch
and file reads are I/O; an unsupported extension or empty extraction is the
`pages = []` case, which returns no chunks). -/
def processCV (cs ov : Nat) (pages : List (Nat × List Char))
    (vision : Option (List Char)) (m f : List Char) : Option (List CVChunk) :=
  if pages.isEmpty then some []
  else
    (processPages cs ov m f pages 0).bind (fun body =>
      (processVision cs ov m f vision body.2).map (fun imgs => body.1 ++ imgs.1))

/-- One eligible file of the CV folder: its name, its extracted pages and
its vision text. -/
structure CVFile where
  name : List Char
  pages : List (Nat × List Char)
  vision : Option (List Char)

/-- `process_all`: iterate the eligible files, skip files whose name maps to
no (or a falsy) matricula, aggregate chunks and the processed/skipped
counts (the mapping is `mapping.get`, i.e. `lookupC`). -/
def processAll (cs ov : Nat) (mapping : List (List Char × List Char)) :
    List CVFile → Option (List CVChunk × Nat × Nat)
  | [] => some ([], 0, 0)
  | file :: rest =>
    match lookupC mapping file.name with
    | none =>
      (processAll cs ov mapping rest).map (fun r => (r.1, r.2.1, r.2.2 + 1))
    | some m =>
      if m.isEmpty then
        (processAll cs ov mapping rest).map (fun r => (r.1, r.2.1, r.2.2 + 1))
      else
        (processCV cs ov file.pages file.vision m file.name).bind (fun chunks =>
          (processAll cs ov mapping rest).map (fun r =>
            (chunks ++ r.1, (if chunks.isEmpty then r.2.1 else r.2.1 + 1), r.2.2)))

/-- Does the mapping carry a truthy matricula for this file name?  (`if not
matricula:` in the source skips both an absent key and an empty value.) -/
def coveredKey (mapping : List (List Char × List Char)) (n : List Char) : Bool :=
  match lookupC mapping n with
  | some v => !v.isEmpty
  | none => false

theorem addChunks_spec (m f : List Char) (pn : Nat) (pref : List Char) :
    ∀ (cts : List (List Char)) (cid : Nat),
      (addChunks m f pn pref cts cid).1.map CVChunk.chunk_id =
        List.range' cid (addChunks m f pn pref cts cid).1.length ∧
      (addChunks m f pn pref cts cid).2 =
        cid + (addChunks m f pn pref cts cid).1.length ∧
      ∀ c ∈ (addChunks m f pn pref cts cid).1,
        c.cv_filename = f ∧ c.matricula = m := by
  intro cts
  induction cts with
  | nil => intro cid; refine ⟨rfl, by simp [addChunks], by simp [addChunks]⟩
  | cons ct rest ih =>
    intro cid
    by_cases hlen : ct.length < MIN_CHUNK_LEN
    · rw [addChunks, if_pos hlen]
      exact ih cid
    · rw [addChunks, if_neg hlen]
      obtain ⟨ih1, ih2, ih3⟩ := ih (cid + 1)
      refine ⟨?_, ?_, ?_⟩
      · simp only [List.map_cons, List.length_cons, ih1, List.range'_succ]
      · simpa [List.length_cons] using by omega
      · intro c hc
        rcases List.mem_cons.mp hc with rfl | hc'
        · exact ⟨rfl, rfl⟩
        · exact ih3 c hc'

theorem processPages_spec (cs ov : Nat) (m f : List Char) :
    ∀ (pages : List (Nat × List Char)) (cid : Nat) (r : List CVChunk × Nat),
      processPages cs ov m f pages cid = some r →
      r.1.map CVChunk.chunk_id = List.range' cid r.1.length ∧
      r.2 = cid + r.1.length ∧
      ∀ c ∈ r.1, c.cv_filename = f ∧ c.matricula = m := by
  intro pages
  induction pages with
  | nil =>
    intro cid r h
    rw [processPages] at h
    cases h
    exact ⟨rfl, by simp, by simp⟩
  | cons pg rest ih =>
    intro cid r h
    obtain ⟨pn, pt⟩ := pg
    rw [processPages] at h
    split at h
    · exact ih cid r h
    · rcases hct : chunkText cs ov (cleanText pt) with _ | cts
      · rw [hct, Option.none_bind] at h; exact absurd h (by simp)
      · rw [hct, Option.some_bind] at h
        rcases hrest : processPages cs ov m f rest (addChunks m f pn [] cts cid).2
            with _ | r2
        · rw [hrest, Option.map_none'] at h; exact absurd h (by simp)
        · rw [hrest, Option.map_some'] at h
          cases h
          obtain ⟨a1, a2, a3⟩ := addChunks_spec m f pn [] cts cid
          obtain ⟨b1, b2, b3⟩ := ih _ r2 hrest
          refine ⟨?_, ?_, ?_⟩
          · rw [List.map_append, a1, b1, a2, List.length_append]
            rw [show cid + (addChunks m f pn [] cts cid).1.length =
                cid + 1 * (addChunks m f pn [] cts cid).1.length from by ring]
            rw [Nat.add_comm (addChunks m f pn [] cts cid).1.length r2.1.length]
            exact List.range'_append cid (addChunks m f pn [] cts cid).1.length r2.1.length 1
          · rw [List.length_append]
            omega
          · intro c hc
            rcases List.mem_append.mp hc with hc' | hc'
            · exact a3 c hc'
            · exact b3 c hc'

theorem processVision_spec (cs ov : Nat) (m f : List Char) (vision : Option (List Char))
    (cid : Nat) (r : List CVChunk × Nat)
    (h : processVision cs ov m f vision cid = some r) :
    r.1.map CVChunk.chunk_id = List.range' cid r.1.length ∧
    ∀ c ∈ r.1, c.cv_filename = f ∧ c.matricula = m := by
  unfold processVision at h
  split at h
  · cases h; exact ⟨rfl, by simp⟩
  next vt =>
    split at h
    · cases h; exact ⟨rfl, by simp⟩
    · split at h
      · cases h; exact ⟨rfl, by simp⟩
      · rcases hct : chunkText cs ov (cleanText vt) with _ | cts
        · rw [hct, Option.map_none'] at h; exact absurd h (by simp)
        · rw [hct, Option.map_some'] at h
          cases h
          obtain ⟨a1, _, a3⟩ := addChunks_spec m f 0 ("[IMAGEN] ".toList) cts cid
          exact ⟨a1, a3⟩

/-- Claim C9: for every document processed by `process_cv` that yields a
chunk list, the `chunk_id`s are `0, 1, 2, …` in list order — they start at
0 and are strictly increasing, hence unique — and the list splits as the
body chunks (produced by the page loop) followed by the image-derived
chunks (produced by the vision block), so every body chunk precedes every
image-derived chunk. -/
theorem processCV_ids_and_order (cs ov : Nat) (pages : List (Nat × List Char))
    (vision : Option (List Char)) (m f : List Char) (l : List CVChunk)
    (h : processCV cs ov pages vision m f = some l) :
    l.map CVChunk.chunk_id = List.range l.length ∧
      ((pages = [] ∧ l = []) ∨
        ∃ body imgs cid2,
          processPages cs ov m f pages 0 = some (body, body.length) ∧
          processVision cs ov m f vision body.length = some (imgs, cid2) ∧
          l = body ++ imgs) := by
  unfold processCV at h
  split at h
  case isTrue hp =>
    cases h
    exact ⟨rfl, Or.inl ⟨by simpa using hp, rfl⟩⟩
  case isFalse hp =>
    rcases hbody : processPages cs ov m f pages 0 with _ | body
    · rw [hbody, Option.none_bind] at h; exact absurd h (by simp)
    · rw [hbody, Option.some_bind] at h
      rcases himgs : processVision cs ov m f vision body.2 with _ | imgs
      · rw [himgs, Option.map_none'] at h; exact absurd h (by simp)
      · rw [himgs, Option.map_some'] at h
        cases h
        obtain ⟨p1, p2, _⟩ := processPages_spec cs ov m f pages 0 body hbody
        obtain ⟨v1, _⟩ := processVision_spec cs ov m f vision body.2 imgs himgs
        have hb2 : body.2 = body.1.length := by simpa using p2
        constructor
        · have key := List.range'_append 0 body.1.length imgs.1.length 1
          simp only [Nat.one_mul, Nat.zero_add] at key
          rw [List.map_append, p1, v1, hb2, List.length_append, List.range_eq_range',
            Nat.add_comm body.1.length imgs.1.length]
          exact key
        · refine Or.inr ⟨body.1, imgs.1, imgs.2, ?_, ?_, rfl⟩
          · rw [← hb2]
          · rw [← hb2]
            exact himgs

theorem processCV_filenames (cs ov : Nat) (pages : List (Nat × List Char))
    (vision : Option (List Char)) (m f : List Char) (l : List CVChunk)
    (h : processCV cs ov pages vision m f = some l) :
    ∀ c ∈ l, c.cv_filename = f := by
  unfold processCV at h
  split at h
  · cases h; simp
  · rcases hbody : processPages cs ov m f pages 0 with _ | body
    · rw [hbody, Option.none_bind] at h; exact absurd h (by simp)
    · rw [hbody, Option.some_bind] at h
      rcases himgs : processVision cs ov m f vision body.2 with _ | imgs
      · rw [himgs, Option.map_none'] at h; exact absurd h (by simp)
      · rw [himgs, Option.map_some'] at h
        cases h
        intro c hc
        rcases List.mem_append.mp hc with hc' | hc'
        · exact ((processPages_spec cs ov m f pages 0 body hbody).2.2 c hc').1
        · exact ((processVision_spec cs ov m f vision body.2 imgs himgs).2 c hc').1

/-- Claim C8, counterexample: a mapping may carry a file's name with an
*empty* owner key; `process_all` then skips the file (`if not matricula:`),
so `skipped` exceeds the number of files whose name is absent from the
mapping. -/
theorem processAll_skip_cex :
    processAll 500 100 [("cv1.pdf".toList, [])]
        [⟨"cv1.pdf".toList, [(1, "x".toList)], none⟩] = some ([], 0, 1) ∧
      (([⟨"cv1.pdf".toList, [(1, "x".toList)], none⟩] : List CVFile).filter
        (fun fl => (lookupC [("cv1.pdf".toList, [])] fl.name).isNone)).length = 0 := by
  exact ⟨rfl, rfl⟩

/-- Claim C8, amended: call a file *covered* when the mapping carries a
non-empty owner key for its name (an entry with an empty owner key is
treated as uncovered, since `if not matricula:` skips it).  Then for every
folder of eligible files and every mapping, `process_all` reports `skipped`
equal to the number of files that are not covered, reports `processed` at
most the number of covered files, and every chunk in the returned list
carries the name of a covered file. -/
theorem processAll_accounting (cs ov : Nat) (mapping : List (List Char × List Char))
    (files : List CVFile) (chunks : List CVChunk) (p s : Nat)
    (h : processAll cs ov mapping files = some (chunks, p, s)) :
    s = (files.filter (fun fl => !coveredKey mapping fl.name)).length ∧
      p ≤ (files.filter (fun fl => coveredKey mapping fl.name)).length ∧
      ∀ c ∈ chunks, coveredKey mapping c.cv_filename = true := by
  induction files generalizing chunks p s with
  | nil =>
    rw [processAll] at h
    cases h
    exact ⟨rfl, by simp, by simp⟩
  | cons file rest ih =>
    rw [processAll] at h
    split at h
    case h_1 hnone =>
      rcases hr : processAll cs ov mapping rest with _ | r
      · rw [hr, Option.map_none'] at h; exact absurd h (by simp)
      · rw [hr, Option.map_some'] at h
        cases h
        obtain ⟨i1, i2, i3⟩ := ih r.1 r.2.1 r.2.2 (by rw [hr])
        have hcov : coveredKey mapping file.name = false := by
          unfold coveredKey
          rw [hnone]
        rw [List.filter_cons, List.filter_cons]
        simp only [hcov, Bool.not_false, if_pos, Bool.false_eq_true, if_neg]
        refine ⟨by simpa using i1, by simpa using i2, i3⟩
    case h_2 m hm =>
      split at h
      case isTrue hemp =>
        rcases hr : processAll cs ov mapping rest with _ | r
        · rw [hr, Option.map_none'] at h; exact absurd h (by simp)
        · rw [hr, Option.map_some'] at h
          cases h
          obtain ⟨i1, i2, i3⟩ := ih r.1 r.2.1 r.2.2 (by rw [hr])
          have hcov : coveredKey mapping file.name = false := by
            unfold coveredKey
            rw [hm]
            simpa using hemp
          rw [List.filter_cons, List.filter_cons]
          simp only [hcov, Bool.not_false, if_pos, Bool.false_eq_true, if_neg]
          refine ⟨by simpa using i1, by simpa using i2, i3⟩
      case isFalse hemp =>
        rcases hcv : processCV cs ov file.pages file.vision m file.name with _ | fchunks
        · rw [hcv, Option.none_bind] at h; exact absurd h (by simp)
        · rw [hcv, Option.some_bind] at h
          rcases hr : processAll cs ov mapping rest with _ | r
          · rw [hr, Option.map_none'] at h; exact absurd h (by simp)
          · rw [hr, Option.map_some'] at h
            cases h
            obtain ⟨i1, i2, i3⟩ := ih r.1 r.2.1 r.2.2 (by rw [hr])
            have hcov : coveredKey mapping file.name = true := by
              unfold coveredKey
              rw [hm]
              simpa using hemp
            rw [List.filter_cons, List.filter_cons]
            simp only [hcov, Bool.not_true, Bool.false_eq_true, if_neg, if_pos]
            refine ⟨i1, ?_, ?_⟩
            · simp only [List.length_cons]
              split <;> omega
            · intro c hc
              rcases List.mem_append.mp hc with hc' | hc'
              · rw [processCV_filenames cs ov file.pages file.vision m file.name fchunks hcv c hc']
                exact hcov
              · exact i3 c hc'

/-- Witness for `processCV_ids_and_order`: a one-page CV with one
vision-extracted text yields `chunk_id`s `[0, 1]`, body first. -/
theorem processCV_ids_and_order_witness :
    ([(⟨"M1".toList, 0, "Experienced software engineer with Python expertise".toList,
        1, "a.pdf".toList⟩ : CVChunk),
      ⟨"M1".toList, 1,
        "[IMAGEN] AWS Certified Solutions Architect Professional credential".toList,
        0, "a.pdf".toList⟩] : List CVChunk).map CVChunk.chunk_id =
      List.range
        ([(⟨"M1".toList, 0, "Experienced software engineer with Python expertise".toList,
            1, "a.pdf".toList⟩ : CVChunk),
          ⟨"M1".toList, 1,
            "[IMAGEN] AWS Certified Solutions Architect Professional credential".toList,
            0, "a.pdf".toList⟩] : List CVChunk).length :=
  (processCV_ids_and_order 500 100
    [(1, "Experienced software engineer with Python expertise".toList)]
    (some "AWS Certified Solutions Architect Professional credential".toList)
    ("M1".toList) ("a.pdf".toList) _ (by decide)).1

/-- Witness for `processAll_accounting`: one file, covered by the mapping
with a non-empty matricula; the run reports `processed = 1`, `skipped = 0`,
and the produced chunk's file name is covered. -/
theorem processAll_accounting_witness :
    ((0 : Nat) = (([⟨"a.pdf".toList,
          [(1, "Experienced software engineer with Python expertise".toList)],
          none⟩] : List CVFile).filter
        (fun fl => !coveredKey [("a.pdf".toList, "M1".toList)] fl.name)).length) ∧
      (1 ≤ (([⟨"a.pdf".toList,
          [(1, "Experienced software engineer with Python expertise".toList)],
          none⟩] : List CVFile).filter
        (fun fl => coveredKey [("a.pdf".toList, "M1".toList)] fl.name)).length) ∧
      coveredKey [("a.pdf".toList, "M1".toList)]
        ((⟨"M1".toList, 0,
          "Experienced software engineer with Python expertise".toList,
          1, "a.pdf".toList⟩ : CVChunk).cv_filename) = true := by
  have h := processAll_accounting 500 100 [("a.pdf".toList, "M1".toList)]
    [⟨"a.pdf".toList,
      [(1, "Experienced software engineer with Python expertise".toList)], none⟩]
    [⟨"M1".toList, 0,
      "Experienced software engineer with Python expertise".toList,
      1, "a.pdf".toList⟩] 1 0 (by decide)
  exact ⟨h.1, h.2.1, h.2.2 _ (by decide)⟩

/-! ### Claim C6: idempotence of `clean_text` -/

theorem normNewlines_cons_ne {c : Char} {rest : List Char} (hc : c ≠ '\r') :
    normNewlines (c :: rest) = c :: normNewlines rest := by
  rw [normNewlines]
  · intro r hcr
    exact absurd hcr hc
  · intro hcr
    exact absurd hcr hc

theorem cr_not_mem_normNewlines (s : List Char) : '\r' ∉ normNewlines s := by
  induction s using normNewlines.induct with
  | case1 => simp [normNewlines]
  | case2 rest ih =>
    rw [show normNewlines ('\r' :: '\n' :: rest) = '\n' :: normNewlines rest from by
      rw [normNewlines]]
    intro h
    rcases List.mem_cons.mp h with h1 | h1
    · exact absurd h1 (by decide)
    · exact ih h1
  | case3 rest hne ih =>
    rw [show normNewlines ('\r' :: rest) = '\n' :: normNewlines rest from by
      rw [normNewlines]
      intro r hr
      exact absurd hr (hne r)]
    intro h
    rcases List.mem_cons.mp h with h1 | h1
    · exact absurd h1 (by decide)
    · exact ih h1
  | case4 c rest h1 h2 ih =>
    have hc : c ≠ '\r' := h2
    rw [normNewlines_cons_ne hc]
    intro h
    rcases List.mem_cons.mp h with h3 | h3
    · exact hc h3.symm
    · exact ih h3

theorem mem_normNewlines {s : List Char} {c : Char} (h : c ∈ normNewlines s) :
    c = '\n' ∨ c ∈ s := by
  induction s using normNewlines.induct with
  | case1 => simp [normNewlines] at h
  | case2 rest ih =>
    rw [show normNewlines ('\r' :: '\n' :: rest) = '\n' :: normNewlines rest from by
      rw [normNewlines]] at h
    rcases List.mem_cons.mp h with h1 | h1
    · exact Or.inl h1
    · rcases ih h1 with h2 | h2
      · exact Or.inl h2
      · exact Or.inr (by simp [h2])
  | case3 rest hne ih =>
    rw [show normNewlines ('\r' :: rest) = '\n' :: normNewlines rest from by
      rw [normNewlines]
      intro r hr
      exact absurd hr (hne r)] at h
    rcases List.mem_cons.mp h with h1 | h1
    · exact Or.inl h1
    · rcases ih h1 with h2 | h2
      · exact Or.inl h2
      · exact Or.inr (by simp [h2])
  | case4 c0 rest h1 h2 ih =>
    have hc : c0 ≠ '\r' := h2
    rw [normNewlines_cons_ne hc] at h
    rcases List.mem_cons.mp h with h3 | h3
    · exact Or.inr (by simp [h3])
    · rcases ih h3 with h4 | h4
      · exact Or.inl h4
      · exact Or.inr (by simp [h4])

theorem normNewlines_eq_self {s : List Char} (h : '\r' ∉ s) : normNewlines s = s := by
  induction s with
  | nil => rfl
  | cons c rest ih =>
    have hc : c ≠ '\r' := fun e => h (by simp [e])
    rw [normNewlines_cons_ne hc, ih (fun hm => h (List.mem_cons_of_mem _ hm))]

theorem splitNl_ne_nil (s : List Char) : splitNl s ≠ [] := by
  induction s with
  | nil => simp [splitNl]
  | cons c rest ih =>
    rw [splitNl]
    split
    · simp
    · rcases h : splitNl rest with _ | ⟨l, ls⟩
      · exact absurd h ih
      · simp

theorem newline_not_mem_splitNl {s : List Char} :
    ∀ l ∈ splitNl s, '\n' ∉ l := by
  induction s with
  | nil =>
    intro l hl
    rw [splitNl] at hl
    rcases List.mem_singleton.mp hl
    simp
  | cons c rest ih =>
    intro l hl
    rw [splitNl] at hl
    split at hl
    · rcases List.mem_cons.mp hl with rfl | hl'
      · simp
      · exact ih l hl'
    next hc =>
      rcases h : splitNl rest with _ | ⟨l0, ls⟩
      · exact absurd h (splitNl_ne_nil rest)
      · rw [h] at hl
        rcases List.mem_cons.mp hl with rfl | hl'
        · intro hmem
          rcases List.mem_cons.mp hmem with h1 | h1
          · exact hc h1.symm
          · exact ih l0 (by rw [h]; exact List.mem_cons_self _ _) h1
        · exact ih l (by rw [h]; exact List.mem_cons_of_mem _ hl')

theorem mem_of_mem_splitNl {s l : List Char} {c : Char}
    (hl : l ∈ splitNl s) (hc : c ∈ l) : c ∈ s := by
  induction s generalizing l with
  | nil =>
    rw [splitNl] at hl
    rcases List.mem_singleton.mp hl
    simp at hc
  | cons a rest ih =>
    rw [splitNl] at hl
    split at hl
    · rcases List.mem_cons.mp hl with rfl | hl'
      · simp at hc
      · exact List.mem_cons_of_mem _ (ih hl' hc)
    · rcases h : splitNl rest with _ | ⟨l0, ls⟩
      · exact absurd h (splitNl_ne_nil rest)
      · rw [h] at hl
        rcases List.mem_cons.mp hl with rfl | hl'
        · rcases List.mem_cons.mp hc with rfl | hc'
          · exact List.mem_cons_self _ _
          · exact List.mem_cons_of_mem _
              (ih (by rw [h]; exact List.mem_cons_self _ _) hc')
        · exact List.mem_cons_of_mem _
            (ih (by rw [h]; exact List.mem_cons_of_mem _ hl') hc)

theorem splitNl_no_nl {a : List Char} (h : '\n' ∉ a) : splitNl a = [a] := by
  induction a with
  | nil => rfl
  | cons c rest ih =>
    rw [splitNl]
    rw [if_neg (by intro e; exact h (by simp [e]))]
    rw [ih (fun hm => h (List.mem_cons_of_mem _ hm))]

theorem splitNl_append {a : List Char} (t : List Char) (h : '\n' ∉ a) :
    splitNl (a ++ '\n' :: t) = a :: splitNl t := by
  induction a with
  | nil =>
    rw [List.nil_append, splitNl, if_pos rfl]
  | cons c rest ih =>
    rw [List.cons_append, splitNl]
    rw [if_neg (by intro e; exact h (by simp [e]))]
    rw [ih (fun hm => h (List.mem_cons_of_mem _ hm))]

theorem joinLines_cons_cons (l l2 : List Char) (M : List (List Char)) :
    joinLines (l :: l2 :: M) = l ++ '\n' :: joinLines (l2 :: M) := rfl

theorem splitNl_joinLines : ∀ (M : List (List Char)), M ≠ [] →
    (∀ l ∈ M, '\n' ∉ l) → splitNl (joinLines M) = M := by
  intro M
  induction M with
  | nil => intro h; exact absurd rfl h
  | cons l M ih =>
    intro _ hM
    rcases M with _ | ⟨l2, M'⟩
    · exact splitNl_no_nl (hM l (List.mem_cons_self _ _))
    · rw [joinLines_cons_cons, splitNl_append _ (hM l (List.mem_cons_self _ _))]
      rw [ih (by simp) (fun l' hl' => hM l' (List.mem_cons_of_mem _ hl'))]

theorem mem_joinLines : ∀ {M : List (List Char)} {c : Char},
    c ∈ joinLines M → c = '\n' ∨ ∃ l ∈ M, c ∈ l := by
  intro M
  induction M with
  | nil => intro c h; simp [joinLines] at h
  | cons l M ih =>
    intro c h
    rcases M with _ | ⟨l2, M'⟩
    · exact Or.inr ⟨l, List.mem_cons_self _ _, h⟩
    · rw [joinLines_cons_cons] at h
      rcases List.mem_append.mp h with h1 | h1
      · exact Or.inr ⟨l, List.mem_cons_self _ _, h1⟩
      · rcases List.mem_cons.mp h1 with rfl | h2
        · exact Or.inl rfl
        · rcases ih h2 with h3 | ⟨l', hl', hc'⟩
          · exact Or.inl h3
          · exact Or.inr ⟨l', List.mem_cons_of_mem _ hl', hc'⟩

theorem joinLines_ne_nil : ∀ {M : List (List Char)}, M ≠ [] →
    (∀ l ∈ M, l ≠ []) → joinLines M ≠ [] := by
  intro M hM hl
  rcases M with _ | ⟨l, _ | ⟨l2, M'⟩⟩
  · exact absurd rfl hM
  · exact hl l (List.mem_cons_self _ _)
  · rw [joinLines_cons_cons]
    simp

theorem head?_append_of_ne_nil {l x : List Char} (h : l ≠ []) :
    (l ++ x).head? = l.head? := by
  cases l with
  | nil => exact absurd rfl h
  | cons c l' => simp

theorem joinLines_head_nonws {M : List (List Char)}
    (hM : ∀ l ∈ M, l ≠ [] ∧ (∀ c, l.head? = some c → pyIsSpace c = false)) :
    ∀ c, (joinLines M).head? = some c → pyIsSpace c = false := by
  intro c h
  rcases M with _ | ⟨l, _ | ⟨l2, M'⟩⟩
  · simp [joinLines] at h
  · exact (hM l (List.mem_cons_self _ _)).2 c h
  · rw [joinLines_cons_cons,
      head?_append_of_ne_nil (hM l (List.mem_cons_self _ _)).1] at h
    exact (hM l (List.mem_cons_self _ _)).2 c h

theorem getLast?_cons_of_ne_nil {a : Char} {z : List Char} (h : z ≠ []) :
    (a :: z).getLast? = z.getLast? :=
  List.getLast?_append_of_ne_nil [a] h

theorem joinLines_getLast_nonws : ∀ {M : List (List Char)},
    (∀ l ∈ M, l ≠ [] ∧ (∀ c, l.getLast? = some c → pyIsSpace c = false)) →
    ∀ c, (joinLines M).getLast? = some c → pyIsSpace c = false := by
  intro M
  induction M with
  | nil => intro _ c h; simp [joinLines] at h
  | cons l M ih =>
    intro hM c h
    rcases M with _ | ⟨l2, M'⟩
    · exact (hM l (List.mem_cons_self _ _)).2 c h
    · rw [joinLines_cons_cons] at h
      have hne : ('\n' :: joinLines (l2 :: M')) ≠ [] := by simp
      rw [List.getLast?_append_of_ne_nil l hne] at h
      have hjoin : joinLines (l2 :: M') ≠ [] :=
        joinLines_ne_nil (by simp) (fun l' hl' => (hM l' (List.mem_cons_of_mem _ hl')).1)
      rw [getLast?_cons_of_ne_nil hjoin] at h
      exact ih (fun l' hl' => hM l' (List.mem_cons_of_mem _ hl')) c h

theorem csGo_cons_not_st {c : Char} {rest : List Char} (hc : isSpaceTab c = false)
    (b : Bool) : collapseSpacesGo b (c :: rest) = c :: collapseSpacesGo false rest := by
  rw [collapseSpacesGo]
  simp [hc]

theorem csGo_append {a : List Char} (t : List Char) (h : '\n' ∉ a) : ∀ b : Bool,
    collapseSpacesGo b (a ++ '\n' :: t) =
      collapseSpacesGo b a ++ '\n' :: collapseSpacesGo false t := by
  induction a with
  | nil =>
    intro b
    rw [List.nil_append, csGo_cons_not_st (by decide) b]
    rfl
  | cons c a' ih =>
    intro b
    by_cases hc : isSpaceTab c
    · rw [List.cons_append, collapseSpacesGo]
      simp only [hc, if_pos]
      cases b with
      | true =>
        rw [collapseSpacesGo]
        simp only [hc, if_pos]
        exact ih (fun hm => h (List.mem_cons_of_mem _ hm)) true
      | false =>
        rw [collapseSpacesGo]
        simp only [hc, if_pos]
        rw [ih (fun hm => h (List.mem_cons_of_mem _ hm)) true]
        simp
    · rw [List.cons_append, csGo_cons_not_st (by simpa using hc) b,
        csGo_cons_not_st (by simpa using hc) b,
        ih (fun hm => h (List.mem_cons_of_mem _ hm)) false]
      simp

theorem csGo_true_head (s : List Char) :
    ∀ c, (collapseSpacesGo true s).head? = some c → isSpaceTab c = false := by
  induction s with
  | nil => intro c h; simp [collapseSpacesGo] at h
  | cons a rest ih =>
    intro c h
    by_cases ha : isSpaceTab a
    · rw [collapseSpacesGo] at h
      simp only [ha, if_pos] at h
      exact ih c h
    · rw [csGo_cons_not_st (by simpa using ha) true] at h
      cases h
      simpa using ha

theorem csGo_true_eq_false {z : List Char}
    (h : ∀ c, z.head? = some c → isSpaceTab c = false) :
    collapseSpacesGo true z = collapseSpacesGo false z := by
  cases z with
  | nil => rfl
  | cons c z' =>
    have hc := h c rfl
    rw [csGo_cons_not_st hc true, csGo_cons_not_st hc false]

theorem csGo_idem : ∀ (s : List Char) (b : Bool),
    collapseSpacesGo false (collapseSpacesGo b s) = collapseSpacesGo b s := by
  intro s
  induction s with
  | nil => intro b; rfl
  | cons c rest ih =>
    intro b
    by_cases hc : isSpaceTab c
    · cases b with
      | true =>
        rw [collapseSpacesGo]
        simp only [hc, if_pos]
        exact ih true
      | false =>
        rw [show collapseSpacesGo false (c :: rest) =
            ' ' :: collapseSpacesGo true rest from by
          rw [collapseSpacesGo]; simp [hc]]
        rw [show collapseSpacesGo false (' ' :: collapseSpacesGo true rest) =
            ' ' :: collapseSpacesGo true (collapseSpacesGo true rest) from by
          rw [collapseSpacesGo]; simp [show isSpaceTab ' ' = true from rfl]]
        rw [csGo_true_eq_false (csGo_true_head rest), ih true]
    · rw [csGo_cons_not_st (by simpa using hc) b,
        csGo_cons_not_st (by simpa using hc) false, ih false]

theorem mem_csGo : ∀ {b : Bool} {s : List Char} {c : Char},
    c ∈ collapseSpacesGo b s → c = ' ' ∨ (c ∈ s ∧ isSpaceTab c = false) := by
  intro b s
  induction s generalizing b with
  | nil => intro c h; simp [collapseSpacesGo] at h
  | cons a rest ih =>
    intro c h
    by_cases ha : isSpaceTab a
    · cases b with
      | true =>
        rw [collapseSpacesGo] at h
        simp only [ha, if_pos] at h
        rcases ih h with h1 | h2
        · exact Or.inl h1
        · exact Or.inr ⟨List.mem_cons_of_mem _ h2.1, h2.2⟩
      | false =>
        rw [collapseSpacesGo] at h
        simp only [ha, if_pos] at h
        rcases List.mem_cons.mp h with rfl | h'
        · exact Or.inl rfl
        · rcases ih h' with h1 | h2
          · exact Or.inl h1
          · exact Or.inr ⟨List.mem_cons_of_mem _ h2.1, h2.2⟩
    · rw [csGo_cons_not_st (by simpa using ha) b] at h
      rcases List.mem_cons.mp h with rfl | h'
      · exact Or.inr ⟨List.mem_cons_self _ _, by simpa using ha⟩
      · rcases ih h' with h1 | h2
        · exact Or.inl h1
        · exact Or.inr ⟨List.mem_cons_of_mem _ h2.1, h2.2⟩

theorem csGo_getLast {c : Char} (hst : isSpaceTab c = false) :
    ∀ {s : List Char} (b : Bool), s.getLast? = some c →
      (collapseSpacesGo b s).getLast? = some c := by
  intro s
  induction s with
  | nil => intro b h; simp at h
  | cons a rest ih =>
    intro b h
    rcases hr : rest with _ | ⟨a2, rest'⟩
    · rw [hr] at h
      simp only [List.getLast?_singleton] at h
      cases h
      rw [csGo_cons_not_st hst b]
      rfl
    · rw [hr] at ih h
      have hrne : (a2 :: rest') ≠ [] := by simp
      rw [getLast?_cons_of_ne_nil hrne] at h
      have hout := ih
      by_cases ha : isSpaceTab a
      · cases b with
        | true =>
          rw [collapseSpacesGo]
          simp only [ha, if_pos]
          exact hout true h
        | false =>
          rw [collapseSpacesGo]
          simp only [ha, if_pos, Bool.false_eq_true, if_false]
          have h2 := hout true h
          have hne2 : collapseSpacesGo true (a2 :: rest') ≠ [] := by
            intro h0
            rw [h0] at h2
            simp at h2
          rw [getLast?_cons_of_ne_nil hne2]
          exact h2
      · rw [csGo_cons_not_st (by simpa using ha) b]
        have h2 := hout false h
        have hne2 : collapseSpacesGo false (a2 :: rest') ≠ [] := by
          intro h0
          rw [h0] at h2
          simp at h2
        rw [getLast?_cons_of_ne_nil hne2]
        exact h2

theorem st_not_alpha {c : Char} (h : isSpaceTab c = true) : isAlphaAZ c = false := by
  unfold isSpaceTab at h
  rcases Bool.or_eq_true_iff.mp h with h1 | h1
  · rw [show c = ' ' from by simpa using h1]
    decide
  · rw [show c = '\t' from by simpa using h1]
    decide

theorem csGo_alpha : ∀ (s : List Char) (b : Bool),
    (collapseSpacesGo b s).filter isAlphaAZ = s.filter isAlphaAZ := by
  intro s
  induction s with
  | nil => intro b; rfl
  | cons c rest ih =>
    intro b
    by_cases hc : isSpaceTab c
    · have hca : isAlphaAZ c = false := st_not_alpha hc
      cases b with
      | true =>
        rw [collapseSpacesGo]
        simp only [hc, if_pos]
        rw [ih true, List.filter_cons, hca]
        simp
      | false =>
        rw [collapseSpacesGo]
        simp only [hc, if_pos, Bool.false_eq_true, if_false]
        rw [List.filter_cons, List.filter_cons, hca,
          show isAlphaAZ ' ' = false from by decide]
        simp only [Bool.false_eq_true, if_false]
        exact ih true
    · rw [csGo_cons_not_st (by simpa using hc) b, List.filter_cons, List.filter_cons,
        ih false]

theorem cnGo_cons_ne {c : Char} {rest : List Char} (hc : c ≠ '\n') :
    collapseNlGo 0 (c :: rest) = c :: collapseNlGo 0 rest := by
  rw [collapseNlGo]
  simp [hc, flushNl]

theorem cnGo_no_nl {a : List Char} (h : '\n' ∉ a) : collapseNlGo 0 a = a := by
  induction a with
  | nil => rfl
  | cons c rest ih =>
    rw [cnGo_cons_ne (fun e => h (by simp [e])),
      ih (fun hm => h (List.mem_cons_of_mem _ hm))]

theorem cnGo_append {a : List Char} (r : List Char) (h : '\n' ∉ a) :
    collapseNlGo 0 (a ++ r) = a ++ collapseNlGo 0 r := by
  induction a with
  | nil => rfl
  | cons c rest ih =>
    rw [List.cons_append, cnGo_cons_ne (fun e => h (by simp [e])),
      ih (fun hm => h (List.mem_cons_of_mem _ hm))]
    rfl

theorem cnGo_one {z : List Char} {c0 : Char} (hz : z.head? = some c0) (hc : c0 ≠ '\n') :
    collapseNlGo 1 z = '\n' :: collapseNlGo 0 z := by
  cases z with
  | nil => simp at hz
  | cons c z' =>
    have : c = c0 := by simpa using hz
    subst this
    rw [collapseNlGo, if_neg hc, cnGo_cons_ne hc]
    rfl

theorem joinLines_head? {l2 : List Char} (M' : List (List Char)) (h : l2 ≠ []) :
    (joinLines (l2 :: M')).head? = l2.head? := by
  cases M' with
  | nil => rfl
  | cons l3 M'' => rw [joinLines_cons_cons, head?_append_of_ne_nil h]

theorem mem_of_head? {l : List Char} {c : Char} (h : l.head? = some c) : c ∈ l := by
  cases l with
  | nil => simp at h
  | cons a l' =>
    cases h
    exact List.mem_cons_self _ _

theorem cn_joinLines : ∀ (M : List (List Char)),
    (∀ l ∈ M, l ≠ [] ∧ '\n' ∉ l) →
    collapseNlGo 0 (joinLines M) = joinLines M := by
  intro M
  induction M with
  | nil => intro _; rfl
  | cons l M ih =>
    intro hM
    rcases M with _ | ⟨l2, M'⟩
    · exact cnGo_no_nl (hM l (List.mem_cons_self _ _)).2
    · rw [joinLines_cons_cons, cnGo_append _ (hM l (List.mem_cons_self _ _)).2]
      have hl2 := hM l2 (List.mem_cons_of_mem _ (List.mem_cons_self _ _))
      rcases hh : (joinLines (l2 :: M')).head? with _ | c0
      · exfalso
        have : joinLines (l2 :: M') ≠ [] :=
          joinLines_ne_nil (by simp)
            (fun l' hl' => (hM l' (List.mem_cons_of_mem _ hl')).1)
        cases hj : joinLines (l2 :: M') with
        | nil => exact this hj
        | cons x xs => rw [hj] at hh; simp at hh
      · have hc0 : c0 ≠ '\n' := by
          rw [joinLines_head? M' hl2.1] at hh
          intro e
          subst e
          exact hl2.2 (mem_of_head? hh)
        rw [show collapseNlGo 0 ('\n' :: joinLines (l2 :: M')) =
            collapseNlGo 1 (joinLines (l2 :: M')) from by
          rw [collapseNlGo, if_pos rfl]]
        rw [cnGo_one hh hc0, ih (fun l' hl' => hM l' (List.mem_cons_of_mem _ hl'))]

/-- The shape of the lines of a `clean_text` output: non-empty, fixed by
`strip` and by the space collapsing, passing the line filter, free of
newlines, carriage returns and control characters. -/
structure GoodLine (m : List Char) : Prop where
  ne_nil : m ≠ []
  strip_eq : pyStrip m = m
  collapse_eq : collapseSpaces m = m
  keep : keepLine m = true
  no_nl : '\n' ∉ m
  no_cr : '\r' ∉ m
  no_ctrl : ∀ c ∈ m, isCtrl c = false

theorem head_nonws_of_stripped {l : List Char} (hs : pyStrip l = l) :
    ∀ c, l.head? = some c → pyIsSpace c = false := by
  intro c h
  exact pyStrip_head? (by rw [hs]; exact h)

theorem getLast_nonws_of_stripped {l : List Char} (hs : pyStrip l = l) :
    ∀ c, l.getLast? = some c → pyIsSpace c = false := by
  intro c h
  exact pyStrip_getLast? (by rw [hs]; exact h)

theorem csGo_joinLines : ∀ (M : List (List Char)),
    (∀ l ∈ M, '\n' ∉ l ∧ collapseSpaces l = l) →
    collapseSpacesGo false (joinLines M) = joinLines M := by
  intro M
  induction M with
  | nil => intro _; rfl
  | cons l M ih =>
    intro hM
    rcases M with _ | ⟨l2, M'⟩
    · exact (hM l (List.mem_cons_self _ _)).2
    · rw [joinLines_cons_cons, csGo_append _ (hM l (List.mem_cons_self _ _)).1 false,
        show collapseSpacesGo false l = l from (hM l (List.mem_cons_self _ _)).2,
        ih (fun l' hl' => hM l' (List.mem_cons_of_mem _ hl'))]

/-- Any list of `GoodLine`s joined by newlines is a fixpoint of
`clean_text`. -/
theorem cleanText_fixpoint : ∀ {M : List (List Char)}, (∀ m ∈ M, GoodLine m) →
    cleanText (joinLines M) = joinLines M := by
  intro M hM
  rcases M with _ | ⟨m0, M'⟩
  · rfl
  · have hctrl : removeCtrl (joinLines (m0 :: M')) = joinLines (m0 :: M') :=
      List.filter_eq_self.mpr (by
        intro c hc
        rcases mem_joinLines hc with rfl | ⟨l, hl, hcl⟩
        · decide
        · simp [(hM l hl).no_ctrl c hcl])
    have hcr : normNewlines (joinLines (m0 :: M')) = joinLines (m0 :: M') :=
      normNewlines_eq_self (by
        intro hc
        rcases mem_joinLines hc with h1 | ⟨l, hl, hcl⟩
        · exact absurd h1 (by decide)
        · exact (hM l hl).no_cr hcl)
    unfold cleanText cleanKeptLines
    rw [hctrl, hcr,
      splitNl_joinLines _ (by simp) (fun l hl => (hM l hl).no_nl)]
    rw [show (m0 :: M').map pyStrip = m0 :: M' from by
      rw [List.map_congr_left (fun l hl => (hM l hl).strip_eq)]
      exact List.map_id _]
    rw [List.filter_eq_self.mpr (fun l hl => (hM l hl).keep)]
    rw [show collapseSpaces (joinLines (m0 :: M')) = joinLines (m0 :: M') from
      csGo_joinLines _ (fun l hl => ⟨(hM l hl).no_nl, (hM l hl).collapse_eq⟩)]
    rw [show collapseNewlines (joinLines (m0 :: M')) = joinLines (m0 :: M') from
      cn_joinLines _ (fun l hl => ⟨(hM l hl).ne_nil, (hM l hl).no_nl⟩)]
    exact pyStrip_eq_self_of
      (joinLines_head_nonws (fun l hl =>
        ⟨(hM l hl).ne_nil, head_nonws_of_stripped (hM l hl).strip_eq⟩))
      (joinLines_getLast_nonws (fun l hl =>
        ⟨(hM l hl).ne_nil, getLast_nonws_of_stripped (hM l hl).strip_eq⟩))

theorem csGo_ne_nil {s : List Char} (h : s ≠ []) : collapseSpacesGo false s ≠ [] := by
  cases s with
  | nil => exact absurd rfl h
  | cons c rest =>
    by_cases hc : isSpaceTab c
    · rw [collapseSpacesGo]
      simp [hc]
    · rw [csGo_cons_not_st (by simpa using hc) false]
      simp

theorem ws_of_st {c : Char} (h : isSpaceTab c = true) : pyIsSpace c = true := by
  unfold isSpaceTab at h
  rcases Bool.or_eq_true_iff.mp h with h1 | h1
  · rw [show c = ' ' from by simpa using h1]
    decide
  · rw [show c = '\t' from by simpa using h1]
    decide

theorem goodLine_of_kept {s l : List Char} (hl : l ∈ cleanKeptLines s) :
    GoodLine (collapseSpaces l) := by
  obtain ⟨hmem, hkeep⟩ := List.mem_filter.mp hl
  obtain ⟨raw, hraw, rfl⟩ := List.mem_map.mp hmem
  have hstrip : pyStrip (pyStrip raw) = pyStrip raw := pyStrip_idem raw
  have hnonl : '\n' ∉ pyStrip raw := fun hm =>
    newline_not_mem_splitNl raw hraw (mem_pyStrip hm)
  have hchars : ∀ c ∈ pyStrip raw, c = '\n' ∨ c ∈ removeCtrl s := by
    intro c hc
    exact mem_normNewlines (mem_of_mem_splitNl hraw (mem_pyStrip hc))
  have hnocr : '\r' ∉ pyStrip raw := fun hm =>
    cr_not_mem_normNewlines (removeCtrl s) (mem_of_mem_splitNl hraw (mem_pyStrip hm))
  have hnoctrl : ∀ c ∈ pyStrip raw, isCtrl c = false := by
    intro c hc
    rcases hchars c hc with rfl | h2
    · decide
    · have := (List.mem_filter.mp h2).2
      simpa using this
  have hne : pyStrip raw ≠ [] := by
    intro h0
    rw [h0] at hkeep
    simp [keepLine] at hkeep
  refine ⟨?_, ?_, ?_, ?_, ?_, ?_, ?_⟩
  · exact csGo_ne_nil hne
  · apply pyStrip_eq_self_of
    · intro c hc
      rcases hhead : (pyStrip raw).head? with _ | c0
      · exact absurd (List.head?_eq_none_iff.mp hhead) hne
      · have hws : pyIsSpace c0 = false := head_nonws_of_stripped hstrip c0 hhead
        have hst : isSpaceTab c0 = false := by
          cases hq : isSpaceTab c0 with
          | false => rfl
          | true => rw [ws_of_st hq] at hws; exact absurd hws (by simp)
        cases hpr : pyStrip raw with
        | nil => exact absurd hpr hne
        | cons x xs =>
          rw [hpr] at hhead
          have hx : x = c0 := by simpa using hhead
          subst hx
          rw [show collapseSpaces (pyStrip raw) =
              x :: collapseSpacesGo false xs from by
            unfold collapseSpaces
            rw [hpr, csGo_cons_not_st hst false]] at hc
          have hcx : x = c := by simpa using hc
          subst hcx
          exact hws
    · intro c hc
      rcases hlast : (pyStrip raw).getLast? with _ | c0
      · rw [List.getLast?_eq_none_iff] at hlast
        exact absurd hlast hne
      · have hws : pyIsSpace c0 = false := getLast_nonws_of_stripped hstrip c0 hlast
        have hst : isSpaceTab c0 = false := by
          cases hq : isSpaceTab c0 with
          | false => rfl
          | true => rw [ws_of_st hq] at hws; exact absurd hws (by simp)
        have := csGo_getLast hst false hlast
        rw [show collapseSpaces (pyStrip raw) =
            collapseSpacesGo false (pyStrip raw) from rfl] at hc
        rw [this] at hc
        have hcc : c0 = c := by simpa using hc
        subst hcc
        exact hws
  · exact csGo_idem (pyStrip raw) false
  · unfold keepLine at hkeep ⊢
    rcases Bool.and_eq_true_iff.mp hkeep with ⟨_, halpha⟩
    rw [Bool.and_eq_true_iff]
    constructor
    · have := csGo_ne_nil hne
      simpa [List.isEmpty_iff] using this
    · rw [show collapseSpaces (pyStrip raw) =
          collapseSpacesGo false (pyStrip raw) from rfl, csGo_alpha]
      exact halpha
  · intro hm
    rcases mem_csGo hm with h1 | h2
    · exact absurd h1 (by decide)
    · exact hnonl h2.1
  · intro hm
    rcases mem_csGo hm with h1 | h2
    · exact absurd h1 (by decide)
    · exact hnocr h2.1
  · intro c hc
    rcases mem_csGo hc with rfl | h2
    · decide
    · exact hnoctrl c h2.1

theorem csGo_joinLines_dist : ∀ (M : List (List Char)),
    (∀ l ∈ M, '\n' ∉ l) →
    collapseSpaces (joinLines M) = joinLines (M.map collapseSpaces) := by
  intro M
  induction M with
  | nil => intro _; rfl
  | cons l M ih =>
    intro hM
    rcases M with _ | ⟨l2, M'⟩
    · rfl
    · rw [joinLines_cons_cons]
      unfold collapseSpaces
      rw [csGo_append _ (hM l (List.mem_cons_self _ _)) false]
      rw [List.map_cons, List.map_cons, joinLines_cons_cons]
      have := ih (fun l' hl' => hM l' (List.mem_cons_of_mem _ hl'))
      unfold collapseSpaces at this
      rw [List.map_cons] at this
      rw [this]

/-- The output of `clean_text` is its kept lines, space-collapsed and joined
by single newlines — and each of those lines is a `GoodLine`. -/
theorem cleanText_eq_joinLines (s : List Char) :
    cleanText s = joinLines ((cleanKeptLines s).map collapseSpaces) ∧
      ∀ m ∈ (cleanKeptLines s).map collapseSpaces, GoodLine m := by
  have hGood : ∀ m ∈ (cleanKeptLines s).map collapseSpaces, GoodLine m := by
    intro m hm
    obtain ⟨l, hl, rfl⟩ := List.mem_map.mp hm
    exact goodLine_of_kept hl
  refine ⟨?_, hGood⟩
  unfold cleanText
  have hnl : ∀ l ∈ cleanKeptLines s, '\n' ∉ l := by
    intro l hl
    obtain ⟨hmem, _⟩ := List.mem_filter.mp hl
    obtain ⟨raw, hraw, rfl⟩ := List.mem_map.mp hmem
    exact fun hm => newline_not_mem_splitNl raw hraw (mem_pyStrip hm)
  rw [csGo_joinLines_dist (cleanKeptLines s) hnl]
  rw [show collapseNewlines (joinLines ((cleanKeptLines s).map collapseSpaces)) =
      joinLines ((cleanKeptLines s).map collapseSpaces) from
    cn_joinLines _ (fun m hm => ⟨(hGood m hm).ne_nil, (hGood m hm).no_nl⟩)]
  exact pyStrip_eq_self_of
    (joinLines_head_nonws (fun m hm =>
      ⟨(hGood m hm).ne_nil, head_nonws_of_stripped (hGood m hm).strip_eq⟩))
    (joinLines_getLast_nonws (fun m hm =>
      ⟨(hGood m hm).ne_nil, getLast_nonws_of_stripped (hGood m hm).strip_eq⟩))

/-- Claim C6: `clean_text` is idempotent — for every string `s`,
`clean_text(clean_text(s)) = clean_text(s)`.  The output of one pass is a
newline-join of non-empty, stripped, space-collapsed, filter-passing lines,
and a second pass leaves such a join unchanged. -/
theorem cleanText_idempotent (s : List Char) :
    cleanText (cleanText s) = cleanText s := by
  obtain ⟨hEq, hGood⟩ := cleanText_eq_joinLines s
  rw [hEq, cleanText_fixpoint hGood]

/-! ### Claim C4: the overlap invariant of consecutive chunks -/

/-- The last `k` characters of a chunk. -/
def lastChars (k : Nat) (c : List Char) : List Char :=
  c.drop (c.length - k)

theorem le_getLast_of_pairwise {l : List Nat} {x q : Nat}
    (hp : l.Pairwise (· < ·)) (hx : x ∈ l) (hq : l.getLast? = some q) : x ≤ q := by
  induction l with
  | nil => simp at hx
  | cons a l' ih =>
    rcases List.mem_cons.mp hx with rfl | hx'
    · cases hl' : l' with
      | nil =>
        subst hl'
        simp at hq
        omega
      | cons b t =>
        subst hl'
        rw [List.getLast?_cons_cons] at hq
        have hqm : q ∈ b :: t := getLast?_mem hq
        have := (List.pairwise_cons.mp hp).1 q hqm
        omega
    · cases hl' : l' with
      | nil => subst hl'; simp at hx'
      | cons b t =>
        subst hl'
        rw [List.getLast?_cons_cons] at hq
        exact ih (List.pairwise_cons.mp hp).2 hx' hq

theorem pyRfind_ge_match {s sub : List Char} {a b : Int} {p : Nat}
    (hm : matchAt s sub p = true) (h1 : pyIdx s.length a ≤ p)
    (h2 : p + sub.length ≤ pyIdx s.length b) :
    (p : Int) ≤ pyRfind s sub a b := by
  have hpr : p ∈ (List.range (s.length + 1)).filter
      (fun i => decide (pyIdx s.length a ≤ i) &&
        decide (i + sub.length ≤ pyIdx s.length b) && matchAt s sub i) := by
    rw [List.mem_filter]
    refine ⟨?_, ?_⟩
    · have := pyIdx_le s.length b
      rw [List.mem_range]
      omega
    · simp only [Bool.and_eq_true, decide_eq_true_eq]
      exact ⟨⟨h1, h2⟩, hm⟩
  have hne := List.ne_nil_of_mem hpr
  unfold pyRfind
  cases hgl : ((List.range (s.length + 1)).filter
      (fun i => decide (pyIdx s.length a ≤ i) &&
        decide (i + sub.length ≤ pyIdx s.length b) && matchAt s sub i)).getLast? with
  | none => exact absurd (List.getLast?_eq_none_iff.mp hgl) hne
  | some q =>
    have hpair : ((List.range (s.length + 1)).filter
        (fun i => decide (pyIdx s.length a ≤ i) &&
          decide (i + sub.length ≤ pyIdx s.length b) && matchAt s sub i)).Pairwise (· < ·) :=
      (List.pairwise_lt_range _).sublist (List.filter_sublist _)
    have h3 := le_getLast_of_pairwise hpair hpr hgl
    show (p : Int) ≤ (q : Int)
    exact_mod_cast h3

theorem matchAt_single {s : List Char} {c : Char} {p : Nat} :
    matchAt s [c] p = true ↔ s[p]? = some c := by
  unfold matchAt
  rw [← List.head?_drop]
  cases s.drop p with
  | nil => simp
  | cons d t =>
    simp only [List.head?_cons, List.length_singleton, List.take_succ_cons,
      List.take_zero]
    constructor
    · intro h
      have : d = c := by simpa using h
      simp [this]
    · intro h
      have : d = c := by simpa using h
      simp [this]

theorem findCut_none_space {text : List Char} {cs : Nat} {start : Int}
    (h : findCut text cs start = none) :
    tryCut text start (start + ((cs / 2 : Nat) : Int)) (start + (cs : Int)) [' '] = none := by
  unfold findCut at h
  rcases h1 : tryCut text start (start + ((cs / 2 : Nat) : Int)) (start + (cs : Int)) ['.', ' ']
      with _ | e1
  · rcases h2 : tryCut text start (start + ((cs / 2 : Nat) : Int)) (start + (cs : Int)) ['\n']
        with _ | e2
    · rcases h3 : tryCut text start (start + ((cs / 2 : Nat) : Int)) (start + (cs : Int)) [',', ' ']
          with _ | e3
      · rcases h4 : tryCut text start (start + ((cs / 2 : Nat) : Int)) (start + (cs : Int)) [' ']
            with _ | e4
        · exact rfl
        · rw [h1, h2, h3, h4] at h
          simp [Option.orElse] at h
      · rw [h1, h2, h3] at h
        simp [Option.orElse] at h
    · rw [h1, h2] at h
      simp [Option.orElse] at h
  · rw [h1] at h
    simp [Option.orElse] at h

theorem zone_no_space {text : List Char} {cs : Nat} {start : Int} {p : Nat}
    (hnc : findCut text cs start = none) (h0 : 0 ≤ start) (hcs : 2 ≤ cs)
    (hin : start + (cs : Int) ≤ (text.length : Int))
    (hp1 : start + ((cs / 2 : Nat) : Int) ≤ (p : Int))
    (hp2 : (p : Int) < start + (cs : Int)) :
    text[p]? ≠ some ' ' := by
  intro hsp
  have hm : matchAt text [' '] p = true := matchAt_single.mpr hsp
  have hlo : (pyIdx text.length (start + ((cs / 2 : Nat) : Int)) : Int) =
      start + ((cs / 2 : Nat) : Int) :=
    pyIdx_of_le (by positivity) (by omega)
  have hhi : (pyIdx text.length (start + (cs : Int)) : Int) = start + (cs : Int) :=
    pyIdx_of_le (by positivity) hin
  have h1 : pyIdx text.length (start + ((cs / 2 : Nat) : Int)) ≤ p := by omega
  have h2 : p + ([' '] : List Char).length ≤ pyIdx text.length (start + (cs : Int)) := by
    simp only [List.length_singleton]
    omega
  have hge := pyRfind_ge_match hm h1 h2
  have htc := findCut_none_space hnc
  unfold tryCut at htc
  split at htc
  · simp at htc
  · rename_i hlt
    push_neg at hlt
    have hd2 : 1 ≤ cs / 2 := (Nat.one_le_div_iff (by omega)).mpr hcs
    omega

theorem pyStrip_eq_nil {l : List Char} (h : pyStrip l = []) :
    ∀ c ∈ l, pyIsSpace c = true := by
  intro c hc
  unfold pyStrip at h
  rw [List.reverse_eq_nil_iff, List.dropWhile_eq_nil_iff] at h
  rw [← List.takeWhile_append_dropWhile pyIsSpace l] at hc
  rcases List.mem_append.mp hc with h1 | h2
  · exact List.mem_takeWhile_imp h1
  · exact h _ (by rwa [List.mem_reverse])

theorem pyStrip_ne_nil_of_mem {l : List Char} {c : Char}
    (hc : c ∈ l) (hw : pyIsSpace c = false) : pyStrip l ≠ [] := by
  intro h
  rw [pyStrip_eq_nil h c hc] at hw
  simp at hw

/-- Right-strip only (`str.rstrip()` on the same whitespace fragment). -/
def rstrip (l : List Char) : List Char :=
  (l.reverse.dropWhile pyIsSpace).reverse

theorem rstrip_prefix (l : List Char) : rstrip l <+: l := by
  have hsuf : l.reverse.dropWhile pyIsSpace <:+ l.reverse := List.dropWhile_suffix _
  have h2 := List.reverse_prefix.mpr hsuf
  rwa [List.reverse_reverse] at h2

theorem take_rstrip {l : List Char} {k : Nat} (hk : k ≤ (rstrip l).length) :
    (rstrip l).take k = l.take k := by
  have hpre := rstrip_prefix l
  rw [List.prefix_iff_eq_take] at hpre
  conv_lhs => rw [hpre]
  rw [List.take_take, Nat.min_eq_left hk]

theorem pyStrip_eq_rstrip_of_head {l : List Char}
    (h : ∀ c, l.head? = some c → pyIsSpace c = false) : pyStrip l = rstrip l := by
  unfold pyStrip rstrip
  rw [dropWhile_eq_self_of h]

theorem pyStrip_eq_dropWhile_of_last {l : List Char} {c : Char}
    (hc : l.getLast? = some c) (hw : pyIsSpace c = false) :
    pyStrip l = l.dropWhile pyIsSpace := by
  unfold pyStrip
  by_cases hu : l.dropWhile pyIsSpace = []
  · have hall := List.dropWhile_eq_nil_iff.mp hu
    have hmem : c ∈ l := getLast?_mem hc
    rw [hall c hmem] at hw
    simp at hw
  · have hsuf : l.dropWhile pyIsSpace <:+ l := List.dropWhile_suffix _
    rcases hsuf with ⟨t, ht⟩
    have hgl : (l.dropWhile pyIsSpace).getLast? = some c := by
      rw [← ht] at hc
      rwa [List.getLast?_append_of_ne_nil t hu] at hc
    have hid : (l.dropWhile pyIsSpace).reverse.dropWhile pyIsSpace =
        (l.dropWhile pyIsSpace).reverse := by
      apply dropWhile_eq_self_of
      intro c' hc'
      rw [List.head?_reverse, hgl] at hc'
      cases hc'
      exact hw
    rw [hid, List.reverse_reverse]

theorem ws_of_ge_rstrip {l : List Char} {i : Nat} {c : Char}
    (h1 : (rstrip l).length ≤ i) (hc : l[i]? = some c) : pyIsSpace c = true := by
  have hdec : rstrip l ++ (l.reverse.takeWhile pyIsSpace).reverse = l := by
    unfold rstrip
    rw [← List.reverse_append, List.takeWhile_append_dropWhile, List.reverse_reverse]
  rw [← hdec, List.getElem?_append_right h1] at hc
  have hcm : c ∈ (l.reverse.takeWhile pyIsSpace).reverse := List.getElem?_mem hc
  rw [List.mem_reverse] at hcm
  exact List.mem_takeWhile_imp hcm

/-- No two adjacent characters are both whitespace. -/
def noTwoWs (x y : Char) : Prop :=
  ¬(pyIsSpace x = true ∧ pyIsSpace y = true)

theorem collapseWsGo_true_head : ∀ {s : List Char} {c : Char},
    (collapseWsGo true s).head? = some c → pyIsSpace c = false := by
  intro s
  induction s with
  | nil => intro c h; simp [collapseWsGo] at h
  | cons a rest ih =>
    intro c h
    by_cases ha : pyIsSpace a
    · rw [collapseWsGo] at h
      simp only [ha, if_true] at h
      exact ih h
    · rw [collapseWsGo] at h
      simp only [ha, Bool.false_eq_true, if_false, if_true] at h
      rw [List.head?_cons] at h
      cases h
      simpa using ha

theorem chain_collapseWsGo : ∀ (b : Bool) (s : List Char),
    List.Chain' noTwoWs (collapseWsGo b s) := by
  intro b s
  induction s generalizing b with
  | nil =>
    have h0 : collapseWsGo b [] = [] := by cases b <;> rfl
    rw [h0]
    exact List.chain'_nil
  | cons a rest ih =>
    by_cases ha : pyIsSpace a
    · cases b with
      | true =>
        rw [collapseWsGo]
        simp only [ha, if_true]
        exact ih true
      | false =>
        rw [collapseWsGo]
        simp only [ha, if_true, Bool.false_eq_true, if_false]
        rw [List.chain'_cons']
        refine ⟨?_, ih true⟩
        intro y hy hcon
        have hwy := collapseWsGo_true_head (Option.mem_def.mp hy)
        rw [hwy] at hcon
        simp at hcon
    · rw [collapseWsGo]
      simp only [ha, Bool.false_eq_true, if_false, if_true]
      rw [List.chain'_cons']
      refine ⟨?_, ih false⟩
      intro y _ hcon
      exact ha hcon.1

theorem pyStrip_within (l : List Char) : pyStrip l <:+: l := by
  have h1 : rstrip (l.dropWhile pyIsSpace) <+: l.dropWhile pyIsSpace :=
    rstrip_prefix (l.dropWhile pyIsSpace)
  exact h1.isInfix.trans (List.dropWhile_suffix pyIsSpace).isInfix

theorem chain_normTxt (s : List Char) : List.Chain' noTwoWs (normTxt s) :=
  List.Chain'.infix (chain_collapseWsGo false s) (pyStrip_within (collapseWs s))

theorem no_adj_ws {text : List Char} (hch : List.Chain' noTwoWs text) {p : Nat} {x y : Char}
    (hx : text[p]? = some x) (hy : text[p + 1]? = some y)
    (hwx : pyIsSpace x = true) : pyIsSpace y = false := by
  obtain ⟨hpx, hxe⟩ := List.getElem?_eq_some_iff.mp hx
  obtain ⟨hpy, hye⟩ := List.getElem?_eq_some_iff.mp hy
  have hR := (List.chain'_iff_get.mp hch) p (by omega)
  by_contra hwy
  have hwy' : pyIsSpace y = true := by
    revert hwy
    cases pyIsSpace y <;> simp
  rw [← hxe] at hwx
  rw [← hye] at hwy'
  exact hR ⟨by simpa using hwx, by simpa using hwy'⟩

theorem pyIdx_ge {n : Nat} {i j : Int} (h0 : 0 ≤ j) (hj : j ≤ i) (hn : j ≤ (n : Int)) :
    j ≤ (pyIdx n i : Int) := by
  unfold pyIdx
  split <;> omega

/-- Every suffix of a successful `goChunks` run is itself the output of a
successful `goChunks` run (from a later loop state), so properties of
`goChunks` outputs apply to every tail of a returned chunk list. -/
theorem goChunks_drop {text : List Char} {cs ov : Nat} :
    ∀ (fuel : Nat) (start : Int) (l : List (List Char)),
      goChunks text cs ov fuel start = some l →
      ∀ i : Nat, ∃ (fuel2 : Nat) (start2 : Int),
        goChunks text cs ov fuel2 start2 = some (l.drop i) := by
  intro fuel
  induction fuel with
  | zero => intro start l h; exact absurd h (by simp [goChunks])
  | succ n ih =>
    intro start l h i
    rw [goChunks] at h
    split at h
    · rcases hX : (if (text.length : Int) - 10 ≤ chunkEnd text cs start - (ov : Int) then
          some ([] : List (List Char))
        else goChunks text cs ov n (chunkEnd text cs start - (ov : Int))) with _ | rest
      · rw [hX] at h
        exact absurd h (by simp)
      · rw [hX, Option.map_some'] at h
        have hrest : ∀ j : Nat, ∃ (fuel2 : Nat) (start2 : Int),
            goChunks text cs ov fuel2 start2 = some (rest.drop j) := by
          split at hX
          · cases hX
            intro j
            refine ⟨1, (text.length : Int), ?_⟩
            rw [goChunks, if_neg (by omega), List.drop_nil]
          · exact ih _ rest hX
        cases h
        split
        · exact hrest i
        · cases i with
          | zero =>
            refine ⟨n + 1, start, ?_⟩
            rw [List.drop_zero, goChunks]
            split
            · rw [hX, Option.map_some']
            · omega
          | succ j => exact hrest j
    · cases h
      refine ⟨1, start, ?_⟩
      rw [goChunks]
      split
      · omega
      · rw [List.drop_nil]

theorem pySlice_getElem? {s : List Char} {a b : Int} {i : Nat}
    (h : pyIdx s.length a + i < pyIdx s.length b) :
    (pySlice s a b)[i]? = s[pyIdx s.length a + i]? := by
  unfold pySlice
  rw [List.getElem?_drop]
  exact List.getElem?_take_of_lt h

/-- Core of the overlap analysis: when the cut for the window at `st` fell at
the raw boundary (the natural-boundary search failed) strictly inside the
text, the chunk emitted at `st` and the chunk emitted at the next loop state
`st + cs - k` share exactly the `k` characters `text[st+cs-k : st+cs]`,
provided `k ≤ cs - cs/2` (so that the shared characters lie inside the
separator-free search zone). -/
theorem overlap_core {text : List Char} {cs k : Nat} {st : Int} {fuel : Nat}
    {l2 : List (List Char)}
    (hws : ∀ c ∈ text, pyIsSpace c = true → c = ' ')
    (hchain : List.Chain' noTwoWs text)
    (hk : 0 < k) (hkcs : k ≤ cs - cs / 2) (hcs : 2 ≤ cs)
    (hgo : goChunks text cs k fuel st = some l2)
    (hst0 : 0 ≤ st)
    (hnc : findCut text cs st = none)
    (hin : st + (cs : Int) < (text.length : Int))
    (hlen2 : 2 ≤ l2.length) :
    lastChars k ((l2[0]?).getD []) = ((l2[1]?).getD []).take k := by
  have hd2 : 1 ≤ cs / 2 := by omega
  have hdle : cs / 2 < cs := by omega
  have hkcs' : k ≤ cs - 1 := by omega
  -- no whitespace at all inside the zone [st + cs/2, st + cs)
  have hz : ∀ (p : Nat) (c : Char), st + ((cs / 2 : Nat) : Int) ≤ (p : Int) →
      (p : Int) < st + (cs : Int) → text[p]? = some c → pyIsSpace c = false := by
    intro p c hp1 hp2 hc
    by_contra hcw
    have hcw' : pyIsSpace c = true := by
      revert hcw
      cases pyIsSpace c <;> simp
    have hsp : c = ' ' := hws c (List.getElem?_mem hc) hcw'
    subst hsp
    exact zone_no_space hnc hst0 hcs (by omega) hp1 hp2 hc
  -- index bookkeeping for the first window [st, st + cs)
  have hAv : (pyIdx text.length st : Int) = st := pyIdx_of_le hst0 (by omega)
  have hBv : (pyIdx text.length (st + (cs : Int)) : Int) = st + (cs : Int) :=
    pyIdx_of_le (by omega) (by omega)
  have hend : chunkEnd text cs st = st + (cs : Int) := by
    unfold chunkEnd
    rw [if_pos hin, hnc, Option.getD_none]
  have hget1 : ∀ i : Nat, i < cs →
      (pySlice text st (st + (cs : Int)))[i]? = text[pyIdx text.length st + i]? := by
    intro i hi
    exact pySlice_getElem? (by omega)
  have hlen1 : (pySlice text st (st + (cs : Int))).length = cs := by
    rw [pySlice_length]
    omega
  -- the last character of the raw first window is not whitespace
  have hlt1 : pyIdx text.length st + (cs - 1) < text.length := by omega
  have hch1 : (pySlice text st (st + (cs : Int)))[cs - 1]? =
      some (text[pyIdx text.length st + (cs - 1)]) := by
    rw [hget1 (cs - 1) (by omega)]
    exact List.getElem?_eq_getElem hlt1
  have hwch1 : pyIsSpace (text[pyIdx text.length st + (cs - 1)]) = false := by
    apply hz (pyIdx text.length st + (cs - 1)) _ (by omega) (by omega)
    exact List.getElem?_eq_getElem hlt1
  have hne1 : chunkAt text cs st ≠ [] := by
    unfold chunkAt
    rw [hend]
    exact pyStrip_ne_nil_of_mem (List.getElem?_mem hch1) hwch1
  -- unfold the loop step at st
  cases fuel with
  | zero => exact absurd hgo (by simp [goChunks])
  | succ f =>
    rw [goChunks, if_pos (show st < (text.length : Int) by omega), hend] at hgo
    rcases hX : (if (text.length : Int) - 10 ≤ st + (cs : Int) - (k : Int) then
        some ([] : List (List Char))
      else goChunks text cs k f (st + (cs : Int) - (k : Int))) with _ | rest
    · rw [hX] at hgo
      exact absurd hgo (by simp)
    · rw [hX, Option.map_some'] at hgo
      split at hgo
      · rename_i hemp
        rw [List.isEmpty_iff] at hemp
        exact absurd hemp hne1
      · cases hgo
        split at hX
        · cases hX
          rw [List.length_cons, List.length_nil] at hlen2
          omega
        · rename_i hguard
          -- bookkeeping for the second window, starting at st + cs - k
          have hst'0 : (0 : Int) ≤ st + (cs : Int) - (k : Int) := by omega
          have hA'v : (pyIdx text.length (st + (cs : Int) - (k : Int)) : Int) =
              st + (cs : Int) - (k : Int) := pyIdx_of_le hst'0 (by omega)
          have he2 : min ((st + (cs : Int) - (k : Int)) + ((cs / 2 : Nat) : Int) + 1)
                ((st + (cs : Int) - (k : Int)) + (cs : Int)) ≤
                chunkEnd text cs (st + (cs : Int) - (k : Int)) ∧
              chunkEnd text cs (st + (cs : Int) - (k : Int)) ≤
                (st + (cs : Int) - (k : Int)) + (cs : Int) := chunkEnd_bounds hst'0
          have he2lb : st + (cs : Int) ≤ chunkEnd text cs (st + (cs : Int) - (k : Int)) := by
            rcases he2 with ⟨h1, h2⟩
            have ha : st + (cs : Int) ≤
                (st + (cs : Int) - (k : Int)) + ((cs / 2 : Nat) : Int) + 1 := by omega
            have hb : st + (cs : Int) ≤ (st + (cs : Int) - (k : Int)) + (cs : Int) := by omega
            calc st + (cs : Int) ≤ _ := le_min ha hb
              _ ≤ _ := h1
          have hB'ge : st + (cs : Int) ≤
              (pyIdx text.length (chunkEnd text cs (st + (cs : Int) - (k : Int))) : Int) :=
            pyIdx_ge (by omega) he2lb (by omega)
          -- the head of the raw second window is not whitespace
          have hlt2 : pyIdx text.length (st + (cs : Int) - (k : Int)) < text.length := by
            omega
          have hch2 : (pySlice text (st + (cs : Int) - (k : Int))
              (chunkEnd text cs (st + (cs : Int) - (k : Int))))[0]? =
              some (text[pyIdx text.length (st + (cs : Int) - (k : Int))]) := by
            have h0 : (pySlice text (st + (cs : Int) - (k : Int))
                (chunkEnd text cs (st + (cs : Int) - (k : Int))))[0]? =
                text[pyIdx text.length (st + (cs : Int) - (k : Int)) + 0]? :=
              pySlice_getElem? (by omega)
            rw [Nat.add_zero] at h0
            rw [h0]
            exact List.getElem?_eq_getElem hlt2
          have hwch2 : pyIsSpace
              (text[pyIdx text.length (st + (cs : Int) - (k : Int))]) = false := by
            apply hz (pyIdx text.length (st + (cs : Int) - (k : Int))) _ (by omega) (by omega)
            exact List.getElem?_eq_getElem hlt2
          have hne2 : chunkAt text cs (st + (cs : Int) - (k : Int)) ≠ [] := by
            unfold chunkAt
            exact pyStrip_ne_nil_of_mem (List.getElem?_mem hch2) hwch2
          -- unfold the loop step at st + cs - k
          cases f with
          | zero => exact absurd hX (by simp [goChunks])
          | succ f2 =>
            rw [goChunks,
              if_pos (show st + (cs : Int) - (k : Int) < (text.length : Int) by omega)] at hX
            rcases hY : (if (text.length : Int) - 10 ≤
                chunkEnd text cs (st + (cs : Int) - (k : Int)) - (k : Int) then
                some ([] : List (List Char))
              else goChunks text cs k f2
                (chunkEnd text cs (st + (cs : Int) - (k : Int)) - (k : Int))) with _ | rest2
            · rw [hY] at hX
              exact absurd hX (by simp)
            · rw [hY, Option.map_some'] at hX
              split at hX
              · rename_i hemp2
                rw [List.isEmpty_iff] at hemp2
                exact absurd hemp2 hne2
              · cases hX
                simp only [List.getElem?_cons_zero, List.getElem?_cons_succ,
                  Option.getD_some]
                -- chunk 1: only (at most one) leading blank is stripped
                have hlt0 : pyIdx text.length st < text.length := by omega
                have hch0 : (pySlice text st (st + (cs : Int)))[0]? =
                    some (text[pyIdx text.length st]) := by
                  have h0 : (pySlice text st (st + (cs : Int)))[0]? =
                      text[pyIdx text.length st + 0]? := pySlice_getElem? (by omega)
                  rw [Nat.add_zero] at h0
                  rw [h0]
                  exact List.getElem?_eq_getElem hlt0
                have hlast1 : (pySlice text st (st + (cs : Int))).getLast? =
                    some (text[pyIdx text.length st + (cs - 1)]) := by
                  rw [List.getLast?_eq_getElem?, hlen1]
                  exact hch1
                have hc1eq : chunkAt text cs st =
                    (pySlice text st (st + (cs : Int))).dropWhile pyIsSpace := by
                  unfold chunkAt
                  rw [hend]
                  exact pyStrip_eq_dropWhile_of_last hlast1 hwch1
                have hdrop1 : lastChars k (chunkAt text cs st) =
                    (pySlice text st (st + (cs : Int))).drop (cs - k) := by
                  by_cases hws0 : pyIsSpace (text[pyIdx text.length st]) = true
                  · rcases hr1 : pySlice text st (st + (cs : Int)) with _ | ⟨c0, t1⟩
                    · rw [hr1] at hlen1
                      simp at hlen1
                      omega
                    · have hc0 : c0 = text[pyIdx text.length st] := by
                        rw [hr1] at hch0
                        simpa using hch0
                      have hlt01 : pyIdx text.length st + 1 < text.length := by omega
                      have hch01 : (pySlice text st (st + (cs : Int)))[1]? =
                          some (text[pyIdx text.length st + 1]) := by
                        have h1 : (pySlice text st (st + (cs : Int)))[1]? =
                            text[pyIdx text.length st + 1]? := pySlice_getElem? (by omega)
                        rw [h1]
                        exact List.getElem?_eq_getElem hlt01
                      have hwch01 : pyIsSpace (text[pyIdx text.length st + 1]) = false :=
                        no_adj_ws hchain (List.getElem?_eq_getElem hlt0)
                          (List.getElem?_eq_getElem hlt01) hws0
                      have ht1h : ∀ c, t1.head? = some c → pyIsSpace c = false := by
                        intro c hc
                        have h2 : (pySlice text st (st + (cs : Int)))[1]? = some c := by
                          rw [hr1, List.getElem?_cons_succ]
                          rw [← List.head?_eq_getElem?]
                          exact hc
                        rw [hch01] at h2
                        cases h2
                        exact hwch01
                      have hlen1' : t1.length = cs - 1 := by
                        rw [hr1, List.length_cons] at hlen1
                        omega
                      rw [hc1eq, hr1]
                      rw [List.dropWhile_cons_of_pos (by rw [hc0]; exact hws0)]
                      rw [dropWhile_eq_self_of ht1h]
                      unfold lastChars
                      rw [hlen1']
                      rw [show cs - k = (cs - k - 1) + 1 by omega, List.drop_succ_cons]
                      congr 1
                      omega
                  · have hws0' : pyIsSpace (text[pyIdx text.length st]) = false := by
                      simpa using hws0
                    have hhead : ∀ c, (pySlice text st (st + (cs : Int))).head? = some c →
                        pyIsSpace c = false := by
                      intro c hc
                      rw [List.head?_eq_getElem?, hch0] at hc
                      cases hc
                      exact hws0'
                    rw [hc1eq, dropWhile_eq_self_of hhead]
                    unfold lastChars
                    rw [hlen1]
                -- chunk 2: only the right end is stripped, and the first k
                -- characters survive (they are all non-blank)
                have htake2 : (chunkAt text cs (st + (cs : Int) - (k : Int))).take k =
                    (pySlice text (st + (cs : Int) - (k : Int))
                      (chunkEnd text cs (st + (cs : Int) - (k : Int)))).take k := by
                  have hh2 : ∀ c, (pySlice text (st + (cs : Int) - (k : Int))
                      (chunkEnd text cs (st + (cs : Int) - (k : Int)))).head? = some c →
                      pyIsSpace c = false := by
                    intro c hc
                    rw [List.head?_eq_getElem?, hch2] at hc
                    cases hc
                    exact hwch2
                  have hc2r : chunkAt text cs (st + (cs : Int) - (k : Int)) =
                      rstrip (pySlice text (st + (cs : Int) - (k : Int))
                        (chunkEnd text cs (st + (cs : Int) - (k : Int)))) := by
                    unfold chunkAt
                    exact pyStrip_eq_rstrip_of_head hh2
                  rw [hc2r]
                  apply take_rstrip
                  by_contra hlt
                  push_neg at hlt
                  have hklt : pyIdx text.length (st + (cs : Int) - (k : Int)) + (k - 1) <
                      text.length := by omega
                  have hr2k : (pySlice text (st + (cs : Int) - (k : Int))
                      (chunkEnd text cs (st + (cs : Int) - (k : Int))))[k - 1]? =
                      some (text[pyIdx text.length (st + (cs : Int) - (k : Int)) + (k - 1)]) := by
                    have h1 : (pySlice text (st + (cs : Int) - (k : Int))
                        (chunkEnd text cs (st + (cs : Int) - (k : Int))))[k - 1]? =
                        text[pyIdx text.length (st + (cs : Int) - (k : Int)) + (k - 1)]? :=
                      pySlice_getElem? (by omega)
                    rw [h1]
                    exact List.getElem?_eq_getElem hklt
                  have hwk := ws_of_ge_rstrip (by omega) hr2k
                  have hnws : pyIsSpace
                      (text[pyIdx text.length (st + (cs : Int) - (k : Int)) + (k - 1)]) =
                      false := by
                    apply hz (pyIdx text.length (st + (cs : Int) - (k : Int)) + (k - 1)) _
                      (by omega) (by omega)
                    exact List.getElem?_eq_getElem hklt
                  rw [hnws] at hwk
                  exact absurd hwk (by simp)
                -- the two sides are the same contiguous piece of the text
                rw [hdrop1, htake2]
                unfold pySlice
                rw [List.drop_drop, List.take_drop, List.take_take]
                have hAA : pyIdx text.length st + (cs - k) =
                    pyIdx text.length (st + (cs : Int) - (k : Int)) := by omega
                have hBB : min (pyIdx text.length (st + (cs : Int) - (k : Int)) + k)
                      (pyIdx text.length (chunkEnd text cs (st + (cs : Int) - (k : Int)))) =
                    pyIdx text.length (st + (cs : Int)) := by
                  have h1 : pyIdx text.length (st + (cs : Int) - (k : Int)) + k ≤
                      pyIdx text.length (chunkEnd text cs (st + (cs : Int) - (k : Int))) := by
                    omega
                  rw [Nat.min_eq_left h1]
                  omega
                rw [hAA, hBB]

/-- Claim C4, counterexample: with `chunk_size = 10` and `overlap = 6` on
`"abcd efghijklmnopqrstuvwxyz"`, the cut ending the first chunk fell at the
raw `chunk_size` boundary (the separator search found nothing, and the
window's right edge lay strictly inside the text), yet the last 6 characters
of the first chunk (`" efghi"`) differ from the first 6 characters of the
second chunk (`"efghij"`): the stripped leading blank of the first chunk
shifts its tail. The claim's `overlap = k > 0` precondition is therefore not
sufficient. -/
theorem chunkText_overlap_cex :
    findCut (normTxt "abcd efghijklmnopqrstuvwxyz".toList) 10 0 = none ∧
    (0 : Int) + (10 : Int) < ((normTxt "abcd efghijklmnopqrstuvwxyz".toList).length : Int) ∧
    chunkText 10 6 "abcd efghijklmnopqrstuvwxyz".toList =
      some ["abcd efghi".toList, "efghijklm".toList, "hijklmnopq".toList,
        "lmnopqrstu".toList, "pqrstuvwxy".toList] ∧
    lastChars 6 "abcd efghi".toList ≠ ("efghijklm".toList).take 6 := by
  decide

/-- Claim C4 (amended): for two consecutive chunks `l2[0]`, `l2[1]` of a
`chunk_text` run (`l2` being any tail of the returned list, produced by the
loop from state `st`), whenever the cut ending `l2[0]` fell at the raw
`chunk_size` boundary (the natural-boundary search `findCut` failed at `st`
with the window's right edge strictly inside the normalized text) AND the
overlap satisfies `k ≤ chunk_size - chunk_size/2` (not merely `k > 0` as
claimed), the last `k` characters of `l2[0]` equal the first `k` characters
of `l2[1]`. Under the weaker `k > 0` alone the property fails, see
`chunkText_overlap_cex`. -/
theorem chunkText_overlap (s : List Char) (cs k i fuel fuel2 : Nat)
    (l l2 : List (List Char)) (st : Int)
    (hk : 0 < k) (hkcs : k ≤ cs - cs / 2) (hcs : 2 ≤ cs)
    (hl : chunkTextFuel cs k s fuel = some l)
    (hgo : goChunks (normTxt s) cs k fuel2 st = some l2)
    (hdrop : l2 = l.drop i)
    (hst0 : 0 ≤ st)
    (hnc : findCut (normTxt s) cs st = none)
    (hin : st + (cs : Int) < ((normTxt s).length : Int))
    (hlen2 : 2 ≤ l2.length) :
    lastChars k ((l2[0]?).getD []) = ((l2[1]?).getD []).take k := by
  apply overlap_core _ (chain_normTxt s) hk hkcs hcs hgo hst0 hnc hin hlen2
  intro c hc hw
  rcases mem_normTxt hc with h1 | h2
  · exact h1
  · rw [h2.2] at hw
    exact absurd hw (by simp)

/-- Witness for `chunkText_overlap`: `chunk_size = 10`, `overlap = 5` on
`"abcdefghijklmnopqrstuvwxyz"`; the first cut falls at the raw boundary and
the last 5 characters of the first chunk equal the first 5 characters of the
second (`"fghij"`). -/
theorem chunkText_overlap_witness :
    lastChars 5 ((["abcdefghij".toList, "fghijklmno".toList, "klmnopqrst".toList,
        "pqrstuvwxy".toList][0]?).getD []) =
      ((["abcdefghij".toList, "fghijklmno".toList, "klmnopqrst".toList,
        "pqrstuvwxy".toList][1]?).getD []).take 5 :=
  chunkText_overlap "abcdefghijklmnopqrstuvwxyz".toList 10 5 0 27 27
    ["abcdefghij".toList, "fghijklmno".toList, "klmnopqrst".toList, "pqrstuvwxy".toList]
    ["abcdefghij".toList, "fghijklmno".toList, "klmnopqrst".toList, "pqrstuvwxy".toList]
    0 (by decide) (by decide) (by decide) (by decide) (by decide) (by decide)
    (by decide) (by decide) (by decide) (by decide)
